import Mathlib

/-! Verification of bitarray, a packed array of fixed-width elements.

A shallow embedding of `bitarray.h` / `bitarray.c`.

* Machine integers are natural numbers; every conversion to a C type of
  width `w` is written as an explicit `% 2 ^ w`.
* The storage behind `ba_unit_t *data` is a total map from unit index to
  unit value.
* The three build-time widths of `bitarray.h` are the fields of `Config`.
* Where C leaves the behaviour undefined (the shift of line 55 of
  `bitarray.c` by the full width of a 32- or 64-bit unit), the outcome is a
  field of `Config` as well: nothing is assumed about it.
-/

namespace BitArray

/-! ## Build-time configuration (bitarray.h) -/

/-- The build-time configuration of `bitarray.h`: the widths of
`ba_element_t`, `ba_unit_t` and `ba_size_t`.  The last two fields record what
the build does at lines 55-57 of `bitarray.c` when `crt_bits` is the full width
of a 32- or 64-bit unit, where the shift `(ba_unit_t)1 << crt_bits` is undefined
in C: `full_shift_value` is the value line 55 then leaves in `mask`, and
`zero_test_runs` tells whether the test `mask == 0` of line 56 is still
executed (an optimiser may drop it, because with a defined shift the mask is
never 0).  Examples: value 0 with the test executed (shift count taken modulo
the width, the mask is recomputed), value 0 with the test dropped (same shift,
optimised code: the mask stays 0), value `2 ^ U - 1` (every bit shifted
out). -/
structure Config where
  BA_ELEMENT_TYPE_BITS : Nat
  BA_UNIT_SIZE_BITS : Nat
  BA_ARRAY_SIZE_BITS : Nat
  full_shift_value : Nat
  zero_test_runs : Bool

/-- The `#if`/`#error` chains of `bitarray.h`: each width is 8, 16, 32 or 64. -/
def Config.Valid (c : Config) : Prop :=
  c.BA_ELEMENT_TYPE_BITS ∈ [8, 16, 32, 64] ∧
  c.BA_UNIT_SIZE_BITS ∈ [8, 16, 32, 64] ∧
  c.BA_ARRAY_SIZE_BITS ∈ [8, 16, 32, 64]

instance (c : Config) : Decidable c.Valid := by
  unfold Config.Valid; infer_instance

/-- The default build: all three widths are 32 (`bitarray.h` lines 40-79),
compiled so that the full-width shift leaves `mask == 0` and the test of line
56 is executed. -/
def defaultConfig : Config :=
  { BA_ELEMENT_TYPE_BITS := 32, BA_UNIT_SIZE_BITS := 32, BA_ARRAY_SIZE_BITS := 32,
    full_shift_value := 0, zero_test_runs := true }

/-- The default build compiled with optimisation: the full-width shift leaves
`mask == 0` and the test of line 56 has been dropped. -/
def optimisedConfig : Config :=
  { BA_ELEMENT_TYPE_BITS := 32, BA_UNIT_SIZE_BITS := 32, BA_ARRAY_SIZE_BITS := 32,
    full_shift_value := 0, zero_test_runs := false }

/-- The macro `BA_STORAGE_SIZE_BYTES(num, sz)`:
`((((uint32_t)(num) * (sz) + 7) & (uint32_t)~7) >> 3)`, computed in
`uint32_t` (the width argument is a `uint8_t` at the call site). -/
def BA_STORAGE_SIZE_BYTES (num sz : Nat) : Nat :=
  ((((num % 2 ^ 32) * sz + 7) % 2 ^ 32) &&& (2 ^ 32 - 1 - 7)) >>> 3

/-! ## Internal helpers (bitarray.c) -/

/-- The macro `BA_MIN(x, y)`: `((x) < (y) ? (x) : (y))`. -/
def BA_MIN (x y : Nat) : Nat := if x < y then x else y

/-- The `bitdesc_t` cursor of `bitarray.c`. -/
structure bitdesc_t where
  idx : Nat
  element_bits : Nat
  left_bits : Nat
  bit_pos : Nat
  mask : Nat
  st_shift : Nat

/-- Number of shift counts for which `(ba_unit_t)1 << n` is defined in C.  A
unit narrower than `int` is promoted to the 32-bit `int`, where the counts up
to 30 keep the result representable; a 32- or 64-bit unit is shifted in its own
type, where the count has to be below the width. -/
def shift_limit (c : Config) : Nat :=
  if c.BA_UNIT_SIZE_BITS < 32 then 31 else c.BA_UNIT_SIZE_BITS

/-- Line 55 of `compute_next`: the value of `((ba_unit_t)1 << crt_bits) - 1`
stored in `mask`, a `ba_element_t`.  With a defined shift it is
`2 ^ crt_bits - 1`; otherwise it is the value of the build. -/
def naive_mask (c : Config) (crt_bits : Nat) : Nat :=
  if crt_bits < shift_limit c then (2 ^ crt_bits - 1) % 2 ^ c.BA_ELEMENT_TYPE_BITS
  else c.full_shift_value % 2 ^ c.BA_ELEMENT_TYPE_BITS

/-- Lines 55-57 of `compute_next`:
`mask = ((ba_unit_t)1 << crt_bits) - 1; if (mask == 0) mask = (ba_element_t)~0;`
where the test of line 56 is executed only if the build has kept it. -/
def slice_mask (c : Config) (crt_bits : Nat) : Nat :=
  if naive_mask c crt_bits = 0 ∧ c.zero_test_runs = true
  then 2 ^ c.BA_ELEMENT_TYPE_BITS - 1
  else naive_mask c crt_bits

/-- The mask that `compute_next` gives a slice that is a whole unit. -/
def ub_mask (c : Config) : Nat := slice_mask c c.BA_UNIT_SIZE_BITS

/-- The function `compute_next`: returns the `int` result together with the updated
descriptor.  The `uint8_t` fields never leave their range (`bit_pos` stays
below the unit width and `crt_bits` is at most both `bit_pos + 1` and
`left_bits`), so their subtractions are exact. -/
def compute_next (c : Config) (d : bitdesc_t) : Nat × bitdesc_t :=
  if d.left_bits = 0 then (0, d)
  else
    let d1 : bitdesc_t :=
      if d.element_bits = d.left_bits then
        let temp32 := ((d.idx % 2 ^ 32) * d.element_bits) % 2 ^ 32
        { d with
          idx := (temp32 / c.BA_UNIT_SIZE_BITS) % 2 ^ c.BA_ARRAY_SIZE_BITS
          bit_pos := c.BA_UNIT_SIZE_BITS - 1 - temp32 % c.BA_UNIT_SIZE_BITS }
      else if d.bit_pos = c.BA_UNIT_SIZE_BITS - 1 then
        { d with idx := (d.idx + 1) % 2 ^ c.BA_ARRAY_SIZE_BITS }
      else d
    let crt_bits := BA_MIN (d1.bit_pos + 1) d1.left_bits
    (1, { idx := d1.idx
          element_bits := d1.element_bits
          left_bits := d1.left_bits - crt_bits
          bit_pos :=
            if d1.bit_pos ≥ d1.element_bits then d1.bit_pos - d1.element_bits
            else c.BA_UNIT_SIZE_BITS - 1
          mask := slice_mask c crt_bits
          st_shift := d1.bit_pos + 1 - crt_bits })

/-! ## Public interface (bitarray.c) -/

/-- The `ba_array_t` structure; `data` is the storage the pointer refers to. -/
structure ba_array_t where
  data : Nat → Nat
  size : Nat
  element_size_bits : Nat

/-- The function `ba_init`: records the storage, the element count and the element width. -/
def ba_init (pbase : Nat → Nat) (num_elements element_size_bits : Nat) : ba_array_t :=
  { data := pbase, size := num_elements, element_size_bits := element_size_bits }

/-- One pass through the body of the `while` loop of `ba_set` (lines 88-94)
for the slice described by `bd`. -/
def ba_set_body (c : Config) (data : Nat) (bd : bitdesc_t) (st : Nat → Nat) : Nat → Nat :=
  let t := st bd.idx
  let t := t &&& (2 ^ c.BA_UNIT_SIZE_BITS - 1 -
    ((bd.mask % 2 ^ c.BA_UNIT_SIZE_BITS) <<< bd.st_shift) % 2 ^ c.BA_UNIT_SIZE_BITS)
  let e := ((data >>> bd.left_bits) &&& bd.mask) % 2 ^ c.BA_UNIT_SIZE_BITS
  Function.update st bd.idx ((t ||| (e <<< bd.st_shift)) % 2 ^ c.BA_UNIT_SIZE_BITS)

/-- The `while (compute_next(&bd))` loop of `ba_set`, bounded by `fuel`
iterations. -/
def ba_set_loop (c : Config) (data : Nat) : Nat → bitdesc_t → (Nat → Nat) → (Nat → Nat)
  | 0, _, st => st
  | fuel + 1, bd, st =>
    if (compute_next c bd).1 = 0 then st
    else ba_set_loop c data fuel (compute_next c bd).2
      (ba_set_body c data (compute_next c bd).2 st)

/-- The function `ba_set`: the array after the call.  Every iteration consumes at least
one of the `element_size_bits` bits, so that many iterations are enough
(`ba_set_loop_fuel`). -/
def ba_set (c : Config) (ba : ba_array_t) (idx data : Nat) : ba_array_t :=
  if idx ≥ ba.size then ba
  else
    { ba with
      data := ba_set_loop c data ba.element_size_bits
        { idx := idx, element_bits := ba.element_size_bits,
          left_bits := ba.element_size_bits, bit_pos := 0, mask := 0, st_shift := 0 }
        ba.data }

/-- One pass through the body of the `while` loop of `ba_get` (lines 107-111). -/
def ba_get_body (c : Config) (bd : bitdesc_t) (st : Nat → Nat) (data : Nat) : Nat :=
  let t := st bd.idx
  let t := ((t >>> bd.st_shift) &&& bd.mask) % 2 ^ c.BA_UNIT_SIZE_BITS
  (data ||| ((t % 2 ^ c.BA_ELEMENT_TYPE_BITS) <<< bd.left_bits)) % 2 ^ c.BA_ELEMENT_TYPE_BITS

/-- The `while (compute_next(&bd))` loop of `ba_get`, bounded by `fuel`
iterations. -/
def ba_get_loop (c : Config) (st : Nat → Nat) : Nat → bitdesc_t → Nat → Nat
  | 0, _, data => data
  | fuel + 1, bd, data =>
    if (compute_next c bd).1 = 0 then data
    else ba_get_loop c st fuel (compute_next c bd).2
      (ba_get_body c (compute_next c bd).2 st data)

/-- The function `ba_get`: the value returned. -/
def ba_get (c : Config) (ba : ba_array_t) (idx : Nat) : Nat :=
  if idx ≥ ba.size then 0
  else
    ba_get_loop c ba.data ba.element_size_bits
      { idx := idx, element_bits := ba.element_size_bits,
        left_bits := ba.element_size_bits, bit_pos := 0, mask := 0, st_shift := 0 }
      0

/-! ## Auxiliary definitions for the proofs -/

/-- The bit offset `temp32` that `compute_next` derives from a logical index:
`(uint32_t)idx * element_bits`, computed in `uint32_t`. -/
def start_bit (idx element_bits : Nat) : Nat := ((idx % 2 ^ 32) * element_bits) % 2 ^ 32

/-- Index of the storage unit in which `compute_next` places global bit `g`
(the unit index is held in a `ba_size_t`). -/
def unitOf (c : Config) (g : Nat) : Nat :=
  (g / c.BA_UNIT_SIZE_BITS) % 2 ^ c.BA_ARRAY_SIZE_BITS

/-- Position, inside its unit, of global bit `g`: bits are numbered from the
most significant end of each unit. -/
def bitOf (c : Config) (g : Nat) : Nat :=
  c.BA_UNIT_SIZE_BITS - 1 - g % c.BA_UNIT_SIZE_BITS

/-- The descriptor `bd` of an element of width `E` stands before global bit
`g`: either no slice was produced yet and `g` is the start of the element,
or the slices so far ended at a unit boundary. -/
def Tracks (c : Config) (E : Nat) (bd : bitdesc_t) (g : Nat) : Prop :=
  bd.element_bits = E ∧ bd.left_bits ≤ E ∧
  ((bd.left_bits = E ∧ g = start_bit bd.idx E) ∨
   (bd.left_bits < E ∧ (0 < bd.left_bits →
      bd.bit_pos = c.BA_UNIT_SIZE_BITS - 1 ∧ g % c.BA_UNIT_SIZE_BITS = 0 ∧
      (bd.idx + 1) % 2 ^ c.BA_ARRAY_SIZE_BITS = unitOf c g)))

/-- Number of bits of the slice that starts at global bit `g` when `L` bits
of the element are left. -/
def sliceBits (c : Config) (g L : Nat) : Nat :=
  min (c.BA_UNIT_SIZE_BITS - g % c.BA_UNIT_SIZE_BITS) L

/-- The whole array lies in the range that `compute_next` can address: the
bit offsets fit the `uint32_t` in which they are computed, and the unit
indices fit the `ba_size_t` in which they are kept. -/
def Addressable (c : Config) (ba : ba_array_t) : Prop :=
  ba.size * ba.element_size_bits < 2 ^ 32 ∧
  ba.size * ba.element_size_bits ≤ c.BA_UNIT_SIZE_BITS * 2 ^ c.BA_ARRAY_SIZE_BITS

instance (c : Config) (ba : ba_array_t) : Decidable (Addressable c ba) := by
  unfold Addressable; infer_instance

/-- Global bit numbering of the storage: global bit `g` is bit
`U - 1 - (g mod U)` of unit `g / U`. -/
def global_bit (U : Nat) (st : Nat → Nat) (g : Nat) : Bool :=
  (st (g / U)).testBit (U - 1 - g % U)

/-- The number whose binary digits, most significant first, are the `n`
consecutive global bits starting at `off`. -/
def be_value (U : Nat) (st : Nat → Nat) (off : Nat) : Nat → Nat
  | 0 => 0
  | n + 1 => 2 * be_value U st off n + (global_bit U st (off + n)).toNat

/-- A plain array of `E`-bit values with `size` slots: a write inside the
range stores the value reduced modulo `2 ^ E`, a write outside is ignored. -/
def plain_set (E size : Nat) (a : Nat → Nat) (i v : Nat) : Nat → Nat :=
  if i ≥ size then a else Function.update a i (v % 2 ^ E)

/-- A sequence of `ba_set` calls, each given as index and value. -/
def ba_set_all (c : Config) (ba : ba_array_t) (ops : List (Nat × Nat)) : ba_array_t :=
  ops.foldl (fun b op => ba_set c b op.1 op.2) ba

/-- The same sequence of writes on the plain array. -/
def plain_set_all (E size : Nat) (a : Nat → Nat) (ops : List (Nat × Nat)) : Nat → Nat :=
  ops.foldl (fun b op => plain_set E size b op.1 op.2) a

/-! ## Concrete builds and arrays used as examples -/

/-- A build with 16-bit elements, 8-bit units and a 32-bit index. -/
def byteConfig : Config :=
  { BA_ELEMENT_TYPE_BITS := 16, BA_UNIT_SIZE_BITS := 8, BA_ARRAY_SIZE_BITS := 32,
    full_shift_value := 0, zero_test_runs := true }

/-- Twenty 11-bit elements over storage that is not zeroed. -/
def byteArray : ba_array_t := ba_init (fun k => 165 + k % 7) 20 11

/-- A build with 16-bit elements, 8-bit units and an 8-bit index. -/
def narrowConfig : Config :=
  { BA_ELEMENT_TYPE_BITS := 16, BA_UNIT_SIZE_BITS := 8, BA_ARRAY_SIZE_BITS := 8,
    full_shift_value := 0, zero_test_runs := true }

/-- Two hundred 16-bit elements over zeroed storage. -/
def narrowArray : ba_array_t := ba_init (fun _ => 0) 200 16

/-- Two hundred 16-bit elements over storage whose unit 300 is all ones. -/
def markedArray : ba_array_t := ba_init (fun k => if k = 300 then 255 else 0) 200 16

/-- An array of 2-bit elements with more than `2 ^ 32` bits, zeroed. -/
def hugeArray : ba_array_t := ba_init (fun _ => 0) (2 ^ 31 + 1) 2

/-- The builds of the `TESTME` program of `bitarray.c`: 64-bit units, any
element and index width, any outcome of the undefined shift. -/
def testmeConfig (T S v : Nat) (r : Bool) : Config :=
  { BA_ELEMENT_TYPE_BITS := T, BA_UNIT_SIZE_BITS := 64, BA_ARRAY_SIZE_BITS := S,
    full_shift_value := v, zero_test_runs := r }

/-- The array of the `TESTME` program: `ba_init(&ba, storage, 22, 3)` over
zeroed storage. -/
def testmeArray : ba_array_t := ba_init (fun _ => 0) 22 3

/-! ## The calls of `compute_next` made by one operation -/

/-- Lines 43-51 of `compute_next`: the descriptor once the unit index and the
bit position are brought up to date, before the slice is computed. -/
def cursor (c : Config) (d : bitdesc_t) : bitdesc_t :=
  if d.element_bits = d.left_bits then
    let temp32 := ((d.idx % 2 ^ 32) * d.element_bits) % 2 ^ 32
    { d with
      idx := (temp32 / c.BA_UNIT_SIZE_BITS) % 2 ^ c.BA_ARRAY_SIZE_BITS
      bit_pos := c.BA_UNIT_SIZE_BITS - 1 - temp32 % c.BA_UNIT_SIZE_BITS }
  else if d.bit_pos = c.BA_UNIT_SIZE_BITS - 1 then
    { d with idx := (d.idx + 1) % 2 ^ c.BA_ARRAY_SIZE_BITS }
  else d

/-- Line 53 of `compute_next`: the local `crt_bits`, the width of the slice. -/
def crt_bits (c : Config) (d : bitdesc_t) : Nat :=
  BA_MIN ((cursor c d).bit_pos + 1) (cursor c d).left_bits

/-- The descriptors passed to the successive calls of `compute_next` that
return 1 in the loop `while (compute_next(&bd))`, bounded by `fuel`. -/
def calls (c : Config) : Nat → bitdesc_t → List bitdesc_t
  | 0, _ => []
  | fuel + 1, bd =>
    if (compute_next c bd).1 = 0 then []
    else bd :: calls c fuel (compute_next c bd).2

/-- The storage unit `ba->data[bd.idx]` that the loop body reads or writes
after the call of `compute_next` on `d`. -/
def call_unit (c : Config) (d : bitdesc_t) : Nat := (compute_next c d).2.idx

/-- The calls of `compute_next` returning 1 made by `ba_set` or `ba_get` for
index `idx` (both start from the same descriptor). -/
def ba_calls (c : Config) (ba : ba_array_t) (idx : Nat) : List bitdesc_t :=
  if idx ≥ ba.size then []
  else
    calls c ba.element_size_bits
      { idx := idx, element_bits := ba.element_size_bits,
        left_bits := ba.element_size_bits, bit_pos := 0, mask := 0, st_shift := 0 }

/-- The storage units read or written by `ba_set` or `ba_get` for index
`idx`, in the order of access. -/
def ba_units (c : Config) (ba : ba_array_t) (idx : Nat) : List Nat :=
  (ba_calls c ba idx).map (call_unit c)

/-- Every storage unit holds a value of type `ba_unit_t`. -/
def WfStorage (c : Config) (st : Nat → Nat) : Prop :=
  ∀ k, st k < 2 ^ c.BA_UNIT_SIZE_BITS

/-- The build leaves a sound mask for every slice of an element of width `E`:
no slice is a full 32- or 64-bit unit, or the mask of the build for such a
slice has all the bits of the unit set. -/
def ShiftSafe (c : Config) (E : Nat) : Prop :=
  E < c.BA_UNIT_SIZE_BITS ∨ c.BA_UNIT_SIZE_BITS < 32 ∨
  ub_mask c % 2 ^ c.BA_UNIT_SIZE_BITS = 2 ^ c.BA_UNIT_SIZE_BITS - 1

instance (c : Config) (E : Nat) : Decidable (ShiftSafe c E) := by
  unfold ShiftSafe; infer_instance

/-- Whether the mask of its slice covers global bit `x` of an element that
occupies the global bits `lo .. hi - 1`: always, unless the unit of `x` is a
32- or 64-bit unit lying wholly inside the element, where the mask is the one
of the build. -/
def liveBit (c : Config) (lo hi x : Nat) : Bool :=
  if 32 ≤ c.BA_UNIT_SIZE_BITS ∧ lo ≤ x - x % c.BA_UNIT_SIZE_BITS ∧
      x - x % c.BA_UNIT_SIZE_BITS + c.BA_UNIT_SIZE_BITS ≤ hi
  then (ub_mask c).testBit (c.BA_UNIT_SIZE_BITS - 1 - x % c.BA_UNIT_SIZE_BITS)
  else true

/-- Ten 32-bit elements over zeroed storage. -/
def wordArray : ba_array_t := ba_init (fun _ => 0) 10 32

/-- Two hundred 12-bit elements over zeroed storage. -/
def narrowArray12 : ba_array_t := ba_init (fun _ => 0) 200 12

/-- One 3-bit element over zeroed storage. -/
def tinyArray : ba_array_t := ba_init (fun _ => 0) 1 3

/-- A build with 64-bit elements, 32-bit units and a 32-bit index, compiled so
that the full-width shift leaves `mask == 0` and the test of line 56 is
executed. -/
def wideConfig : Config :=
  { BA_ELEMENT_TYPE_BITS := 64, BA_UNIT_SIZE_BITS := 32, BA_ARRAY_SIZE_BITS := 32,
    full_shift_value := 0, zero_test_runs := true }

/-- The initializer of `bd` in `ba_set` and `ba_get`:
`{idx, ba->element_size_bits, ba->element_size_bits, 0, 0, 0}`. -/
def bitdesc_init (idx element_size_bits : Nat) : bitdesc_t :=
  { idx := idx, element_bits := element_size_bits, left_bits := element_size_bits,
    bit_pos := 0, mask := 0, st_shift := 0 }

/-- Twenty 11-bit elements over storage whose units all hold `0xA5`. -/
def patternArray : ba_array_t := ba_init (fun _ => 165) 20 11

deriving instance DecidableEq for bitdesc_t

/-! ## Arithmetic of unit boundaries -/

theorem Config.Valid.unit_pos {c : Config} (h : c.Valid) : 0 < c.BA_UNIT_SIZE_BITS := by
  obtain ⟨-, hU, -⟩ := h
  simp only [List.mem_cons, List.mem_singleton, List.not_mem_nil, or_false] at hU
  omega

theorem Config.Valid.bounds {c : Config} (h : c.Valid) :
    8 ≤ c.BA_ELEMENT_TYPE_BITS ∧ c.BA_ELEMENT_TYPE_BITS ≤ 64 ∧
    8 ≤ c.BA_UNIT_SIZE_BITS ∧ c.BA_UNIT_SIZE_BITS ≤ 64 ∧
    8 ≤ c.BA_ARRAY_SIZE_BITS ∧ c.BA_ARRAY_SIZE_BITS ≤ 64 := by
  obtain ⟨hT, hU, hS⟩ := h
  simp only [List.mem_cons, List.mem_singleton, List.not_mem_nil, or_false] at hT hU hS
  omega

theorem next_boundary (g U : Nat) (hU : 0 < U) :
    (g + (U - g % U)) % U = 0 ∧ (g + (U - g % U)) / U = g / U + 1 := by
  have h1 := Nat.div_add_mod g U
  have h2 := Nat.mod_lt g hU
  have e : g + (U - g % U) = U * (g / U + 1) := by
    rw [Nat.mul_add, Nat.mul_one]; omega
  rw [e]
  exact ⟨Nat.mul_mod_right _ _, Nat.mul_div_cancel_left _ hU⟩

theorem within_unit (g r U : Nat) (hU : 0 < U) (h : g % U + r < U) :
    (g + r) / U = g / U ∧ (g + r) % U = g % U + r := by
  have h1 := Nat.div_add_mod g U
  have e : g + r = g % U + r + U * (g / U) := by omega
  rw [e]
  constructor
  · rw [Nat.add_mul_div_left _ _ hU, Nat.div_eq_of_lt h]; omega
  · rw [Nat.add_mul_mod_self_left, Nat.mod_eq_of_lt h]

/-! ## The slice mask -/

theorem low_mask_mod (T U : Nat) (h : U ≤ T) : (2 ^ T - 1) % 2 ^ U = 2 ^ U - 1 := by
  apply Nat.eq_of_testBit_eq
  intro i
  simp only [Nat.testBit_mod_two_pow, Nat.testBit_two_pow_sub_one]
  by_cases hi : i < U
  · have : i < T := by omega
    simp [hi, this]
  · simp [hi]

theorem naive_mask_eq (c : Config) (n : Nat) (hnT : n ≤ c.BA_ELEMENT_TYPE_BITS)
    (hlt : n < shift_limit c) : naive_mask c n = 2 ^ n - 1 := by
  have h1 : 2 ^ n ≤ 2 ^ c.BA_ELEMENT_TYPE_BITS := Nat.pow_le_pow_right (by norm_num) hnT
  have hpos : 0 < 2 ^ n := Nat.two_pow_pos n
  simp only [naive_mask, if_pos hlt]
  exact Nat.mod_eq_of_lt (by omega)

/-- With a defined shift the mask is `n` low-order one bits. -/
theorem slice_mask_defined (c : Config) (n : Nat) (h1 : 1 ≤ n)
    (hnT : n ≤ c.BA_ELEMENT_TYPE_BITS) (hlt : n < shift_limit c) :
    slice_mask c n = 2 ^ n - 1 := by
  have hn2 : 2 ≤ 2 ^ n := by
    calc 2 = 2 ^ 1 := by norm_num
      _ ≤ 2 ^ n := Nat.pow_le_pow_right (by norm_num) h1
  simp only [slice_mask, naive_mask_eq c n hnT hlt]
  rw [if_neg (by omega)]

/-- The shift is undefined only for a slice that is a whole 32- or 64-bit
unit. -/
theorem undefined_full (c : Config) (hv : c.Valid) (n : Nat) (hnU : n ≤ c.BA_UNIT_SIZE_BITS)
    (h : ¬ n < shift_limit c) : n = c.BA_UNIT_SIZE_BITS ∧ 32 ≤ c.BA_UNIT_SIZE_BITS := by
  obtain ⟨-, hU, -⟩ := hv
  simp only [List.mem_cons, List.mem_singleton, List.not_mem_nil, or_false] at hU
  simp only [shift_limit] at h
  split_ifs at h with h32 <;> omega

theorem shift_limit_iff (c : Config) (hv : c.Valid) (n : Nat) (hnU : n ≤ c.BA_UNIT_SIZE_BITS) :
    n < shift_limit c ↔ (c.BA_UNIT_SIZE_BITS < 32 ∨ n < c.BA_UNIT_SIZE_BITS) := by
  obtain ⟨-, hU, -⟩ := hv
  simp only [List.mem_cons, List.mem_singleton, List.not_mem_nil, or_false] at hU
  simp only [shift_limit]
  split_ifs with h32 <;> omega

/-- With an undefined shift the slice is a whole unit and the mask is the
one the build gives a whole unit. -/
theorem slice_mask_undefined (c : Config) (hv : c.Valid) (n : Nat)
    (hnU : n ≤ c.BA_UNIT_SIZE_BITS) (h : ¬ n < shift_limit c) :
    slice_mask c n = ub_mask c := by
  rw [(undefined_full c hv n hnU h).1]
  rfl

/-- Inside the unit, the mask of a slice of `n` bits has no bit at or above
position `n`. -/
theorem slice_mask_bits (c : Config) (hv : c.Valid) (n : Nat) (h1 : 1 ≤ n)
    (hnU : n ≤ c.BA_UNIT_SIZE_BITS) (hnT : n ≤ c.BA_ELEMENT_TYPE_BITS) (q : Nat)
    (hq : q < c.BA_UNIT_SIZE_BITS) (hb : (slice_mask c n).testBit q = true) : q < n := by
  by_cases hlt : n < shift_limit c
  · rw [slice_mask_defined c n h1 hnT hlt, Nat.testBit_two_pow_sub_one] at hb
    simpa using hb
  · have := (undefined_full c hv n hnU hlt).1
    omega

/-- When the build is safe for the element width, the mask of every slice is
`n` low-order one bits inside the unit. -/
theorem slice_mask_mod (c : Config) (hv : c.Valid) (E n : Nat) (hs : ShiftSafe c E) (h1 : 1 ≤ n)
    (hnE : n ≤ E) (hnU : n ≤ c.BA_UNIT_SIZE_BITS) (hnT : n ≤ c.BA_ELEMENT_TYPE_BITS) :
    slice_mask c n % 2 ^ c.BA_UNIT_SIZE_BITS = 2 ^ n - 1 := by
  have hnU2 : 2 ^ n ≤ 2 ^ c.BA_UNIT_SIZE_BITS := Nat.pow_le_pow_right (by norm_num) hnU
  have hpos : 0 < 2 ^ n := Nat.two_pow_pos n
  by_cases hlt : n < shift_limit c
  · rw [slice_mask_defined c n h1 hnT hlt]
    exact Nat.mod_eq_of_lt (by omega)
  · have hf := undefined_full c hv n hnU hlt
    rw [slice_mask_undefined c hv n hnU hlt, hf.1]
    rcases hs with h | h | h
    · omega
    · omega
    · exact h

/-- A build in which line 55 leaves 0 for the full-width shift and the test
of line 56 is executed is safe for every element width the element type
holds. -/
theorem shiftSafe_of_test_runs (c : Config) (E : Nat) (hE : E ≤ c.BA_ELEMENT_TYPE_BITS)
    (h0 : c.full_shift_value % 2 ^ c.BA_ELEMENT_TYPE_BITS = 0)
    (hr : c.zero_test_runs = true) : ShiftSafe c E := by
  by_cases h1 : E < c.BA_UNIT_SIZE_BITS
  · exact Or.inl h1
  · by_cases h2 : c.BA_UNIT_SIZE_BITS < 32
    · exact Or.inr (Or.inl h2)
    · right; right
      have hlt : ¬ c.BA_UNIT_SIZE_BITS < shift_limit c := by
        simp only [shift_limit, if_neg h2, lt_irrefl, not_false_eq_true]
      simp only [ub_mask, slice_mask, naive_mask, if_neg hlt, h0, hr, and_self, if_true]
      exact low_mask_mod _ _ (by omega)

theorem sliceBits_pos (c : Config) (hU : 0 < c.BA_UNIT_SIZE_BITS) (g L : Nat) (hL : 0 < L) :
    1 ≤ sliceBits c g L := by
  have := Nat.mod_lt g hU
  simp only [sliceBits]
  omega

theorem sliceBits_le (c : Config) (g L : Nat) :
    sliceBits c g L ≤ L ∧ sliceBits c g L ≤ c.BA_UNIT_SIZE_BITS - g % c.BA_UNIT_SIZE_BITS := by
  simp only [sliceBits]
  omega

/-- A safe build leaves every bit of every element live. -/
theorem liveBit_of_safe (c : Config) (lo E x : Nat) (hs : ShiftSafe c E)
    (hU : 0 < c.BA_UNIT_SIZE_BITS) : liveBit c lo (lo + E) x = true := by
  simp only [liveBit]
  split_ifs with h
  · obtain ⟨h32, h1, h2⟩ := h
    have hxm := Nat.mod_lt x hU
    have hlt : c.BA_UNIT_SIZE_BITS - 1 - x % c.BA_UNIT_SIZE_BITS < c.BA_UNIT_SIZE_BITS := by omega
    rcases hs with h | h | h
    · omega
    · omega
    · have ht := congrArg (fun m => m.testBit (c.BA_UNIT_SIZE_BITS - 1 - x % c.BA_UNIT_SIZE_BITS)) h
      simp only [Nat.testBit_mod_two_pow, Nat.testBit_two_pow_sub_one, hlt, decide_True,
        Bool.true_and] at ht
      exact ht
  · rfl

/-- In the slice that starts at the cursor, the mask bit that stands over a
global bit is the liveness of that bit. -/
theorem liveBit_first (c : Config) (hv : c.Valid) (g L r : Nat) (hL : 0 < L)
    (hLT : L ≤ c.BA_ELEMENT_TYPE_BITS) (hr : r < sliceBits c g L) :
    (slice_mask c (sliceBits c g L)).testBit (sliceBits c g L - 1 - r)
      = liveBit c g (g + L) (g + r) := by
  have hU := hv.unit_pos
  have hn1 := sliceBits_pos c hU g L hL
  have hn2 := sliceBits_le c g L
  have hgm := Nat.mod_lt g hU
  have hw := within_unit g r c.BA_UNIT_SIZE_BITS hU (by omega)
  have hbase : g + r - (g + r) % c.BA_UNIT_SIZE_BITS = g - g % c.BA_UNIT_SIZE_BITS := by
    rw [hw.2]; omega
  have hgle : g % c.BA_UNIT_SIZE_BITS ≤ g := Nat.mod_le _ _
  by_cases hlt : sliceBits c g L < shift_limit c
  · rw [slice_mask_defined c _ hn1 (by omega) hlt, Nat.testBit_two_pow_sub_one]
    have hcond : ¬ (32 ≤ c.BA_UNIT_SIZE_BITS ∧
        g ≤ g + r - (g + r) % c.BA_UNIT_SIZE_BITS ∧
        g + r - (g + r) % c.BA_UNIT_SIZE_BITS + c.BA_UNIT_SIZE_BITS ≤ g + L) := by
      rintro ⟨h32, h1, h2⟩
      rw [hbase] at h1 h2
      have hfull : sliceBits c g L = c.BA_UNIT_SIZE_BITS := by
        simp only [sliceBits]; omega
      have := (shift_limit_iff c hv _ (by omega)).1 hlt
      omega
    simp only [liveBit, if_neg hcond]
    exact decide_eq_true (by omega)
  · have hf := undefined_full c hv _ (by omega) hlt
    have hg0 : g % c.BA_UNIT_SIZE_BITS = 0 := by omega
    have hcond : 32 ≤ c.BA_UNIT_SIZE_BITS ∧
        g ≤ g + r - (g + r) % c.BA_UNIT_SIZE_BITS ∧
        g + r - (g + r) % c.BA_UNIT_SIZE_BITS + c.BA_UNIT_SIZE_BITS ≤ g + L := by
      rw [hbase]
      refine ⟨hf.2, by omega, by omega⟩
    rw [slice_mask_undefined c hv _ (by omega) hlt]
    simp only [liveBit, if_pos hcond]
    rw [hf.1, hw.2, hg0, Nat.zero_add]

/-- The liveness of a bit does not change when the cursor moves to a unit
boundary at or before it. -/
theorem liveBit_shift (c : Config) (g n hi x : Nat) (hx : g + n ≤ x)
    (hmod : (g + n) % c.BA_UNIT_SIZE_BITS = 0) :
    liveBit c (g + n) hi x = liveBit c g hi x := by
  have hd : x = (g + n) + (x - (g + n)) := by omega
  have hxm : x % c.BA_UNIT_SIZE_BITS = (x - (g + n)) % c.BA_UNIT_SIZE_BITS := by
    conv_lhs => rw [hd]
    rw [Nat.add_mod, hmod, Nat.zero_add, Nat.mod_mod]
  have hle : (x - (g + n)) % c.BA_UNIT_SIZE_BITS ≤ x - (g + n) := Nat.mod_le _ _
  have h1 : g + n ≤ x - x % c.BA_UNIT_SIZE_BITS := by omega
  have h2 : g ≤ x - x % c.BA_UNIT_SIZE_BITS := by omega
  simp only [liveBit, h1, h2, true_and]

theorem unit_ne (a d M : Nat) (hd : 0 < d) (hdM : d < M) : (a + d) % M ≠ a % M := by
  intro h
  have h1 : a + d ≡ a + 0 [MOD M] := by simpa [Nat.ModEq] using h
  have h2 : d ≡ 0 [MOD M] := Nat.ModEq.add_left_cancel' a h1
  have h3 : M ∣ d := (Nat.modEq_zero_iff_dvd).1 h2
  have := Nat.le_of_dvd hd h3
  omega

/-- The units after the one of the cursor differ from it, as long as fewer
bits are left than the index type has values. -/
theorem later_unit_ne (c : Config) (hU : 0 < c.BA_UNIT_SIZE_BITS) (g q : Nat)
    (hq : q + 1 < 2 ^ c.BA_ARRAY_SIZE_BITS) :
    unitOf c (g + (c.BA_UNIT_SIZE_BITS - g % c.BA_UNIT_SIZE_BITS) + q) ≠ unitOf c g := by
  have hnb := next_boundary g c.BA_UNIT_SIZE_BITS hU
  have hdvd : c.BA_UNIT_SIZE_BITS ∣ g + (c.BA_UNIT_SIZE_BITS - g % c.BA_UNIT_SIZE_BITS) :=
    Nat.dvd_of_mod_eq_zero hnb.1
  have hdiv : (g + (c.BA_UNIT_SIZE_BITS - g % c.BA_UNIT_SIZE_BITS) + q) / c.BA_UNIT_SIZE_BITS
      = g / c.BA_UNIT_SIZE_BITS + (1 + q / c.BA_UNIT_SIZE_BITS) := by
    rw [Nat.add_div_of_dvd_right hdvd, hnb.2, Nat.add_assoc]
  have hqle : q / c.BA_UNIT_SIZE_BITS ≤ q := Nat.div_le_self _ _
  simp only [unitOf, hdiv]
  exact unit_ne (g / c.BA_UNIT_SIZE_BITS) (1 + q / c.BA_UNIT_SIZE_BITS)
    (2 ^ c.BA_ARRAY_SIZE_BITS) (Nat.add_pos_left Nat.one_pos _) (by omega)

/-! ## One call of `compute_next` -/

theorem compute_next_step (c : Config) (hU : 0 < c.BA_UNIT_SIZE_BITS) (E : Nat)
    (bd : bitdesc_t) (g : Nat) (h : Tracks c E bd g) (hL : 0 < bd.left_bits) :
    (compute_next c bd).1 = 1 ∧
    (compute_next c bd).2.idx = unitOf c g ∧
    (compute_next c bd).2.left_bits = bd.left_bits - sliceBits c g bd.left_bits ∧
    (compute_next c bd).2.mask = slice_mask c (sliceBits c g bd.left_bits) ∧
    (compute_next c bd).2.st_shift =
      c.BA_UNIT_SIZE_BITS - g % c.BA_UNIT_SIZE_BITS - sliceBits c g bd.left_bits ∧
    Tracks c E (compute_next c bd).2 (g + sliceBits c g bd.left_bits) := by
  obtain ⟨T, U, S, fv, zr⟩ := c
  obtain ⟨idx, eb, L, bp, mk, sh⟩ := bd
  simp only at hU hL
  obtain ⟨hE, hLE, hcase⟩ := h
  simp only at hE hLE hcase
  subst hE
  have hL0 : L ≠ 0 := by omega
  have hgm := Nat.mod_lt g hU
  have hnb := next_boundary g U hU
  rcases hcase with ⟨hLeq, hg⟩ | ⟨hlt, hrest⟩
  · -- first call: the bit offset is computed from the logical index
    subst hLeq
    have hg2 : g = (idx % 2 ^ 32 * L) % 2 ^ 32 := hg
    have hbp : U - 1 - g % U + 1 = U - g % U := by omega
    have hmin : BA_MIN (U - g % U) L = min (U - g % U) L := by
      simp only [BA_MIN]; split_ifs <;> omega
    simp only [compute_next, if_neg hL0, if_true, ← hg2, hbp, hmin, sliceBits, unitOf, Tracks,
      true_and]
    refine ⟨by omega, ?_⟩
    right
    refine ⟨by omega, fun hpos => ?_⟩
    have hn : min (U - g % U) L = U - g % U := by omega
    rw [hn]
    refine ⟨?_, hnb.1, ?_⟩
    · split_ifs <;> omega
    · rw [hnb.2, Nat.add_mod, Nat.mod_mod, ← Nat.add_mod]
  · -- later call: the previous slice ended at the low end of its unit
    obtain ⟨hbpU, hg0, hidx⟩ := hrest hL
    have hne : ¬ (eb = L) := by omega
    have hbp : U - 1 + 1 = U := by omega
    have hmin : BA_MIN U L = min U L := by
      simp only [BA_MIN]; split_ifs <;> omega
    simp only [compute_next, if_neg hL0, if_neg hne, hbpU, if_true, hbp, hmin, sliceBits, hg0,
      Nat.sub_zero, Tracks, true_and]
    refine ⟨hidx, by omega, ?_⟩
    right
    refine ⟨by omega, fun hpos => ?_⟩
    have hn : min U L = U := by omega
    rw [hn]
    have hnb2 : (g + U) % U = 0 ∧ (g + U) / U = g / U + 1 := by
      have := hnb; rw [hg0, Nat.sub_zero] at this; exact this
    refine ⟨?_, hnb2.1, ?_⟩
    · split_ifs <;> omega
    · simp only [unitOf] at hidx ⊢
      rw [hnb2.2, hidx, Nat.add_mod (g / U), Nat.add_mod (g / U % 2 ^ S), Nat.mod_mod]

/-! ## One slice: the bits written and the bits read -/

theorem ba_set_body_testBit (c : Config) (v : Nat) (bd : bitdesc_t) (st : Nat → Nat)
    (j p : Nat) :
    (ba_set_body c v bd st j).testBit p =
      if j = bd.idx then
        (decide (p < c.BA_UNIT_SIZE_BITS) &&
          (if bd.st_shift ≤ p ∧ bd.mask.testBit (p - bd.st_shift) = true
            then v.testBit (bd.left_bits + (p - bd.st_shift)) else (st j).testBit p))
      else (st j).testBit p := by
  obtain ⟨T, U, S, fv, zr⟩ := c
  obtain ⟨idx, eb, l, bp, m, s⟩ := bd
  simp only [ba_set_body, Function.update_apply]
  by_cases hj : j = idx
  · subst hj
    simp only [if_true]
    have hX : (m % 2 ^ U) <<< s % 2 ^ U < 2 ^ U := Nat.mod_lt _ (Nat.two_pow_pos U)
    have hsub : 2 ^ U - 1 - (m % 2 ^ U) <<< s % 2 ^ U
        = 2 ^ U - ((m % 2 ^ U) <<< s % 2 ^ U + 1) := by omega
    rw [hsub]
    simp only [Nat.testBit_mod_two_pow, Nat.testBit_or, Nat.testBit_and, Nat.testBit_shiftLeft,
      Nat.testBit_shiftRight, Nat.testBit_two_pow_sub_succ hX]
    by_cases hpU : p < U
    · by_cases hsp : s ≤ p
      · have h2 : p - s < U := by omega
        cases hm : m.testBit (p - s) <;> simp [hpU, hsp, h2, hm]
      · simp [hpU, hsp]
    · simp [hpU]
  · simp only [if_neg hj]

theorem ba_get_body_testBit (c : Config) (bd : bitdesc_t) (st : Nat → Nat) (data : Nat)
    (hd : data < 2 ^ c.BA_ELEMENT_TYPE_BITS) (b : Nat) :
    (ba_get_body c bd st data).testBit b =
      (data.testBit b ||
        (decide (b < c.BA_ELEMENT_TYPE_BITS ∧ bd.left_bits ≤ b ∧
            b - bd.left_bits < c.BA_UNIT_SIZE_BITS) &&
          (bd.mask.testBit (b - bd.left_bits) &&
            (st bd.idx).testBit (bd.st_shift + (b - bd.left_bits))))) := by
  obtain ⟨T, U, S, fv, zr⟩ := c
  obtain ⟨idx, eb, l, bp, m, s⟩ := bd
  simp only at hd ⊢
  simp only [ba_get_body]
  simp only [Nat.testBit_mod_two_pow, Nat.testBit_or, Nat.testBit_and, Nat.testBit_shiftLeft,
    Nat.testBit_shiftRight]
  by_cases hbT : b < T
  · by_cases hlb : l ≤ b
    · have h2 : b - l < T := by omega
      by_cases hbU : b - l < U
      · cases hm : m.testBit (b - l) <;> simp [hbT, hlb, h2, hbU, hm]
      · simp [hbT, hlb, h2, hbU]
    · simp [hbT, hlb]
  · have hb : data.testBit b = false := by
      apply Nat.testBit_lt_two_pow
      calc data < 2 ^ T := hd
        _ ≤ 2 ^ b := Nat.pow_le_pow_right (by norm_num) (by omega)
    simp [hbT, hb]

theorem ba_set_body_other (c : Config) (v : Nat) (bd : bitdesc_t) (st : Nat → Nat) (k : Nat)
    (h : k ≠ bd.idx) : ba_set_body c v bd st k = st k := by
  simp only [ba_set_body]
  exact Function.update_noteq h _ _

/-! ## The loops of `ba_get` and `ba_set` -/

theorem compute_next_done (c : Config) (bd : bitdesc_t) (h : bd.left_bits = 0) :
    (compute_next c bd).1 = 0 := by
  simp [compute_next, h]

theorem ba_get_body_lt (c : Config) (bd : bitdesc_t) (st : Nat → Nat) (data : Nat) :
    ba_get_body c bd st data < 2 ^ c.BA_ELEMENT_TYPE_BITS :=
  Nat.mod_lt _ (Nat.two_pow_pos _)

/-- Bit `b` of the value assembled by the read loop is the storage bit that
lies `left_bits - 1 - b` positions after the cursor, when that bit is live. -/
theorem ba_get_loop_testBit (c : Config) (hv : c.Valid) (E : Nat)
    (hE : E ≤ c.BA_ELEMENT_TYPE_BITS) (st : Nat → Nat) :
    ∀ (fuel : Nat) (bd : bitdesc_t) (g data : Nat), Tracks c E bd g → bd.left_bits ≤ fuel →
      data < 2 ^ c.BA_ELEMENT_TYPE_BITS → ∀ b : Nat,
      (ba_get_loop c st fuel bd data).testBit b =
        (data.testBit b ||
          (decide (b < bd.left_bits) &&
            (liveBit c g (g + bd.left_bits) (g + (bd.left_bits - 1 - b)) &&
              (st (unitOf c (g + (bd.left_bits - 1 - b)))).testBit
                (bitOf c (g + (bd.left_bits - 1 - b)))))) := by
  have hU := hv.unit_pos
  intro fuel
  induction fuel with
  | zero =>
    intro bd g data _ hf _ b
    have h0 : ¬ (b < bd.left_bits) := by omega
    simp [ba_get_loop, h0]
  | succ fuel ih =>
    intro bd g data ht hf hd b
    by_cases hL : bd.left_bits = 0
    · have h0 : ¬ (b < bd.left_bits) := by omega
      simp [ba_get_loop, compute_next_done c bd hL, h0]
    · have hLpos : 0 < bd.left_bits := Nat.pos_of_ne_zero hL
      obtain ⟨h1, hidx, hleft, hmask, hshift, htr⟩ := compute_next_step c hU E bd g ht hLpos
      have hn1 := sliceBits_pos c hU g bd.left_bits hLpos
      have hn2 := sliceBits_le c g bd.left_bits
      have hLE : bd.left_bits ≤ E := ht.2.1
      have hgm := Nat.mod_lt g hU
      have hbody := ba_get_body_testBit c (compute_next c bd).2 st data hd b
      have hrec := ih (compute_next c bd).2 (g + sliceBits c g bd.left_bits)
        (ba_get_body c (compute_next c bd).2 st data) htr (by rw [hleft]; omega)
        (ba_get_body_lt c _ st data) b
      have hne : ¬ ((compute_next c bd).1 = 0) := by omega
      have hbits : ∀ q, q < c.BA_UNIT_SIZE_BITS →
          (slice_mask c (sliceBits c g bd.left_bits)).testBit q = true →
          q < sliceBits c g bd.left_bits :=
        fun q hq hb => slice_mask_bits c hv _ hn1 (by omega) (by omega) q hq hb
      have hlive : ∀ r, r < sliceBits c g bd.left_bits →
          (slice_mask c (sliceBits c g bd.left_bits)).testBit (sliceBits c g bd.left_bits - 1 - r)
            = liveBit c g (g + bd.left_bits) (g + r) :=
        fun r hr => liveBit_first c hv g bd.left_bits r hLpos (by omega) hr
      have hlater : sliceBits c g bd.left_bits < bd.left_bits →
          ∀ x, g + sliceBits c g bd.left_bits ≤ x →
          liveBit c (g + sliceBits c g bd.left_bits) (g + bd.left_bits) x
            = liveBit c g (g + bd.left_bits) x := by
        intro hlt x hx
        have hfull : sliceBits c g bd.left_bits
            = c.BA_UNIT_SIZE_BITS - g % c.BA_UNIT_SIZE_BITS := by
          simp only [sliceBits] at hlt ⊢; omega
        have hnb := next_boundary g c.BA_UNIT_SIZE_BITS hU
        rw [← hfull] at hnb
        exact liveBit_shift c g _ _ x hx hnb.1
      rw [ba_get_loop, if_neg hne, hrec, hbody, hleft, hidx, hshift, hmask]
      generalize sliceBits c g bd.left_bits = n at *
      generalize bd.left_bits = L at *
      by_cases hb1 : b < L - n
      · have e1 : g + n + (L - n - 1 - b) = g + (L - 1 - b) := by omega
        have e0 : g + n + (L - n) = g + L := by omega
        have e2 : ¬ (b < c.BA_ELEMENT_TYPE_BITS ∧ L - n ≤ b ∧
            b - (L - n) < c.BA_UNIT_SIZE_BITS) := by omega
        have e3 : b < L := by omega
        rw [decide_eq_false e2, decide_eq_true hb1, decide_eq_true e3, e1, e0,
          hlater (by omega) _ (by omega)]
        simp
      · by_cases hb2 : b < L
        · have hw := within_unit g (L - 1 - b) c.BA_UNIT_SIZE_BITS hU (by omega)
          have e2 : b < c.BA_ELEMENT_TYPE_BITS ∧ L - n ≤ b ∧
              b - (L - n) < c.BA_UNIT_SIZE_BITS := by omega
          have e4 : c.BA_UNIT_SIZE_BITS - g % c.BA_UNIT_SIZE_BITS - n + (b - (L - n))
              = c.BA_UNIT_SIZE_BITS - 1 - (g % c.BA_UNIT_SIZE_BITS + (L - 1 - b)) := by omega
          have e5 : n - 1 - (L - 1 - b) = b - (L - n) := by omega
          have hl := hlive (L - 1 - b) (by omega)
          rw [e5] at hl
          simp only [unitOf, bitOf, hw.1, hw.2, e4]
          rw [decide_eq_true e2, decide_eq_false hb1, decide_eq_true hb2, hl]
          simp
        · rw [decide_eq_false hb1, decide_eq_false hb2]
          cases hm : (slice_mask c n).testBit (b - (L - n))
          · simp
          · have e2 : ¬ (b < c.BA_ELEMENT_TYPE_BITS ∧ L - n ≤ b ∧
                b - (L - n) < c.BA_UNIT_SIZE_BITS) := by
              intro h
              have := hbits _ h.2.2 hm
              omega
            rw [decide_eq_false e2]
            simp

/-- The write loop leaves every storage bit outside the remaining bit range
of the element as it was. -/
theorem ba_set_loop_frame (c : Config) (hv : c.Valid) (E : Nat)
    (hE : E ≤ c.BA_ELEMENT_TYPE_BITS) (v : Nat) :
    ∀ (fuel : Nat) (bd : bitdesc_t) (g : Nat) (st : Nat → Nat), Tracks c E bd g →
      bd.left_bits ≤ fuel → ∀ j p : Nat, p < c.BA_UNIT_SIZE_BITS →
      (∀ r, r < bd.left_bits → ¬ (unitOf c (g + r) = j ∧ bitOf c (g + r) = p)) →
      (ba_set_loop c v fuel bd st j).testBit p = (st j).testBit p := by
  have hU := hv.unit_pos
  intro fuel
  induction fuel with
  | zero =>
    intro bd g st _ _ j p _ _
    simp [ba_set_loop]
  | succ fuel ih =>
    intro bd g st ht hf j p hp hout
    by_cases hL : bd.left_bits = 0
    · simp [ba_set_loop, compute_next_done c bd hL]
    · have hLpos : 0 < bd.left_bits := Nat.pos_of_ne_zero hL
      obtain ⟨h1, hidx, hleft, hmask, hshift, htr⟩ := compute_next_step c hU E bd g ht hLpos
      have hn1 := sliceBits_pos c hU g bd.left_bits hLpos
      have hn2 := sliceBits_le c g bd.left_bits
      have hLE : bd.left_bits ≤ E := ht.2.1
      have hgm := Nat.mod_lt g hU
      have hbits : ∀ q, q < c.BA_UNIT_SIZE_BITS →
          (slice_mask c (sliceBits c g bd.left_bits)).testBit q = true →
          q < sliceBits c g bd.left_bits :=
        fun q hq hb => slice_mask_bits c hv _ hn1 (by omega) (by omega) q hq hb
      have hbody := ba_set_body_testBit c v (compute_next c bd).2 st j p
      have hrec := ih (compute_next c bd).2 (g + sliceBits c g bd.left_bits)
        (ba_set_body c v (compute_next c bd).2 st) htr (by rw [hleft]; omega) j p hp
        (by
          intro r hr
          rw [hleft] at hr
          have := hout (sliceBits c g bd.left_bits + r) (by omega)
          rwa [Nat.add_assoc])
      have hne : ¬ ((compute_next c bd).1 = 0) := by omega
      rw [ba_set_loop, if_neg hne, hrec, hbody, hidx, hshift, hmask]
      generalize sliceBits c g bd.left_bits = n at *
      generalize bd.left_bits = L at *
      by_cases hj : j = unitOf c g
      · rw [if_pos hj]
        have hnot : ¬ (c.BA_UNIT_SIZE_BITS - g % c.BA_UNIT_SIZE_BITS - n ≤ p ∧
            (slice_mask c n).testBit
              (p - (c.BA_UNIT_SIZE_BITS - g % c.BA_UNIT_SIZE_BITS - n)) = true) := by
          intro hin
          have hq := hbits _ (by omega) hin.2
          have hw := within_unit g (c.BA_UNIT_SIZE_BITS - 1 - g % c.BA_UNIT_SIZE_BITS - p)
            c.BA_UNIT_SIZE_BITS hU (by omega)
          apply hout (c.BA_UNIT_SIZE_BITS - 1 - g % c.BA_UNIT_SIZE_BITS - p) (by omega)
          simp only [unitOf, bitOf, hw.1, hw.2] at hj ⊢
          exact ⟨hj.symm, by omega⟩
        rw [if_neg hnot, decide_eq_true hp, Bool.true_and]
      · rw [if_neg hj]

/-- The write loop leaves every storage unit it does not visit as it was. -/
theorem ba_set_loop_unit_frame (c : Config) (hU : 0 < c.BA_UNIT_SIZE_BITS) (E : Nat) (v : Nat) :
    ∀ (fuel : Nat) (bd : bitdesc_t) (g : Nat) (st : Nat → Nat), Tracks c E bd g →
      bd.left_bits ≤ fuel → ∀ j : Nat,
      (∀ r, r < bd.left_bits → unitOf c (g + r) ≠ j) →
      ba_set_loop c v fuel bd st j = st j := by
  intro fuel
  induction fuel with
  | zero =>
    intro bd g st _ _ j _
    simp [ba_set_loop]
  | succ fuel ih =>
    intro bd g st ht hf j hout
    by_cases hL : bd.left_bits = 0
    · simp [ba_set_loop, compute_next_done c bd hL]
    · have hLpos : 0 < bd.left_bits := Nat.pos_of_ne_zero hL
      obtain ⟨h1, hidx, hleft, -, -, htr⟩ := compute_next_step c hU E bd g ht hLpos
      have hn2 := sliceBits_le c g bd.left_bits
      have hrec := ih (compute_next c bd).2 (g + sliceBits c g bd.left_bits)
        (ba_set_body c v (compute_next c bd).2 st) htr (by
          have := sliceBits_pos c hU g bd.left_bits hLpos
          rw [hleft]; omega) j
        (by
          intro r hr
          rw [hleft] at hr
          have := hout (sliceBits c g bd.left_bits + r) (by omega)
          rwa [Nat.add_assoc])
      have hne : ¬ ((compute_next c bd).1 = 0) := by omega
      have hj : j ≠ unitOf c g := by
        have := hout 0 hLpos
        rw [Nat.add_zero] at this
        exact fun h => this h.symm
      rw [ba_set_loop, if_neg hne, hrec]
      simp only [ba_set_body, hidx]
      exact Function.update_noteq hj _ _

/-- After the write loop, the storage bit that lies `r` positions after the
cursor holds bit `left_bits - 1 - r` of the value when it is live, and its
old value otherwise. -/
theorem ba_set_loop_written (c : Config) (hv : c.Valid) (E : Nat)
    (hE : E ≤ c.BA_ELEMENT_TYPE_BITS) (v : Nat) :
    ∀ (fuel : Nat) (bd : bitdesc_t) (g : Nat) (st : Nat → Nat), Tracks c E bd g →
      bd.left_bits ≤ fuel → bd.left_bits < 2 ^ c.BA_ARRAY_SIZE_BITS →
      ∀ r : Nat, r < bd.left_bits →
      (ba_set_loop c v fuel bd st (unitOf c (g + r))).testBit (bitOf c (g + r))
        = if liveBit c g (g + bd.left_bits) (g + r) = true
          then v.testBit (bd.left_bits - 1 - r)
          else (st (unitOf c (g + r))).testBit (bitOf c (g + r)) := by
  have hU := hv.unit_pos
  intro fuel
  induction fuel with
  | zero =>
    intro bd g st _ hf _ r hr
    omega
  | succ fuel ih =>
    intro bd g st ht hf hM r hr
    have hLpos : 0 < bd.left_bits := by omega
    obtain ⟨h1, hidx, hleft, hmask, hshift, htr⟩ := compute_next_step c hU E bd g ht hLpos
    have hn1 := sliceBits_pos c hU g bd.left_bits hLpos
    have hn2 := sliceBits_le c g bd.left_bits
    have hLE : bd.left_bits ≤ E := ht.2.1
    have hgm := Nat.mod_lt g hU
    have hne : ¬ ((compute_next c bd).1 = 0) := by omega
    have hfuel : (compute_next c bd).2.left_bits ≤ fuel := by rw [hleft]; omega
    rw [ba_set_loop, if_neg hne]
    by_cases hrn : r < sliceBits c g bd.left_bits
    · -- the bit lies in the slice written by this iteration
      have hw := within_unit g r c.BA_UNIT_SIZE_BITS hU (by omega)
      have hbit : bitOf c (g + r) < c.BA_UNIT_SIZE_BITS := by
        simp only [bitOf]; omega
      have hu : unitOf c (g + r) = unitOf c g := by simp only [unitOf, hw.1]
      have hfr := ba_set_loop_frame c hv E hE v fuel (compute_next c bd).2
        (g + sliceBits c g bd.left_bits) (ba_set_body c v (compute_next c bd).2 st) htr hfuel
        (unitOf c (g + r)) (bitOf c (g + r)) hbit
        (by
          intro q hq hloc
          rw [hleft] at hq
          have hfull : sliceBits c g bd.left_bits
              = c.BA_UNIT_SIZE_BITS - g % c.BA_UNIT_SIZE_BITS := by
            simp only [sliceBits] at hq ⊢; omega
          have := later_unit_ne c hU g q (by omega)
          rw [← hfull, ← hu] at this
          exact this hloc.1)
      have hbody := ba_set_body_testBit c v (compute_next c bd).2 st (unitOf c (g + r))
        (bitOf c (g + r))
      have hl := liveBit_first c hv g bd.left_bits r hLpos (by omega) hrn
      have hin : (compute_next c bd).2.st_shift ≤ bitOf c (g + r) := by
        simp only [bitOf, hw.2, hshift]; omega
      have hpos : bitOf c (g + r) - (compute_next c bd).2.st_shift
          = sliceBits c g bd.left_bits - 1 - r := by
        simp only [bitOf, hw.2, hshift]; omega
      have harg : (compute_next c bd).2.left_bits
          + (sliceBits c g bd.left_bits - 1 - r) = bd.left_bits - 1 - r := by
        rw [hleft]; omega
      rw [hfr, hbody, hidx, if_pos hu, decide_eq_true hbit, Bool.true_and, hpos, hmask, hl, harg]
      simp only [hin, true_and]
    · -- the bit is written by a later iteration
      have hfull : sliceBits c g bd.left_bits
          = c.BA_UNIT_SIZE_BITS - g % c.BA_UNIT_SIZE_BITS := by
        simp only [sliceBits] at hrn ⊢; omega
      have hrec := ih (compute_next c bd).2 (g + sliceBits c g bd.left_bits)
        (ba_set_body c v (compute_next c bd).2 st) htr hfuel (by rw [hleft]; omega)
        (r - sliceBits c g bd.left_bits) (by rw [hleft]; omega)
      have e1 : g + sliceBits c g bd.left_bits + (r - sliceBits c g bd.left_bits) = g + r := by
        omega
      have e2 : (compute_next c bd).2.left_bits - 1 - (r - sliceBits c g bd.left_bits)
          = bd.left_bits - 1 - r := by rw [hleft]; omega
      have e0 : g + sliceBits c g bd.left_bits + (compute_next c bd).2.left_bits
          = g + bd.left_bits := by rw [hleft]; omega
      have hnb := next_boundary g c.BA_UNIT_SIZE_BITS hU
      rw [← hfull] at hnb
      have hsh := liveBit_shift c g (sliceBits c g bd.left_bits) (g + bd.left_bits) (g + r)
        (by omega) hnb.1
      have hne2 : unitOf c (g + r) ≠ (compute_next c bd).2.idx := by
        have := later_unit_ne c hU g (r - sliceBits c g bd.left_bits) (by omega)
        rw [← hfull, e1] at this
        rw [hidx]
        exact this
      rw [e1, e2, e0, hsh, ba_set_body_other c v _ st _ hne2] at hrec
      exact hrec

/-- Once the element is consumed further iterations change nothing: the fuel
given to the loops by `ba_set` and `ba_get` is enough. -/
theorem ba_set_loop_fuel (c : Config) (hU : 0 < c.BA_UNIT_SIZE_BITS) (E : Nat) (v : Nat) :
    ∀ (fuel : Nat) (bd : bitdesc_t) (g : Nat) (st : Nat → Nat), Tracks c E bd g →
      bd.left_bits ≤ fuel → ∀ extra : Nat,
      ba_set_loop c v (fuel + extra) bd st = ba_set_loop c v fuel bd st := by
  intro fuel
  induction fuel with
  | zero =>
    intro bd g st _ hf extra
    have hL : bd.left_bits = 0 := by omega
    cases extra with
    | zero => rfl
    | succ e => simp [ba_set_loop, compute_next_done c bd hL]
  | succ fuel ih =>
    intro bd g st ht hf extra
    by_cases hL : bd.left_bits = 0
    · have e : fuel + 1 + extra = (fuel + extra) + 1 := by omega
      rw [e]
      simp [ba_set_loop, compute_next_done c bd hL]
    · have hLpos : 0 < bd.left_bits := Nat.pos_of_ne_zero hL
      obtain ⟨h1, -, hleft, -, -, htr⟩ := compute_next_step c hU E bd g ht hLpos
      have hn1 := sliceBits_pos c hU g bd.left_bits hLpos
      have hne : ¬ ((compute_next c bd).1 = 0) := by omega
      have e : fuel + 1 + extra = (fuel + extra) + 1 := by omega
      rw [e, ba_set_loop, ba_set_loop, if_neg hne, if_neg hne]
      exact ih _ _ _ htr (by rw [hleft]; omega) extra

theorem ba_get_loop_fuel (c : Config) (hU : 0 < c.BA_UNIT_SIZE_BITS) (E : Nat)
    (st : Nat → Nat) :
    ∀ (fuel : Nat) (bd : bitdesc_t) (g data : Nat), Tracks c E bd g →
      bd.left_bits ≤ fuel → ∀ extra : Nat,
      ba_get_loop c st (fuel + extra) bd data = ba_get_loop c st fuel bd data := by
  intro fuel
  induction fuel with
  | zero =>
    intro bd g data _ hf extra
    have hL : bd.left_bits = 0 := by omega
    cases extra with
    | zero => rfl
    | succ e => simp [ba_get_loop, compute_next_done c bd hL]
  | succ fuel ih =>
    intro bd g data ht hf extra
    by_cases hL : bd.left_bits = 0
    · have e : fuel + 1 + extra = (fuel + extra) + 1 := by omega
      rw [e]
      simp [ba_get_loop, compute_next_done c bd hL]
    · have hLpos : 0 < bd.left_bits := Nat.pos_of_ne_zero hL
      obtain ⟨h1, -, hleft, -, -, htr⟩ := compute_next_step c hU E bd g ht hLpos
      have hn1 := sliceBits_pos c hU g bd.left_bits hLpos
      have hne : ¬ ((compute_next c bd).1 = 0) := by omega
      have e : fuel + 1 + extra = (fuel + extra) + 1 := by omega
      rw [e, ba_get_loop, ba_get_loop, if_neg hne, if_neg hne]
      exact ih _ _ _ htr (by rw [hleft]; omega) extra

/-! ## `ba_get` and `ba_set` bit by bit -/

theorem tracks_init (c : Config) (idx E : Nat) :
    Tracks c E
      { idx := idx, element_bits := E, left_bits := E, bit_pos := 0, mask := 0, st_shift := 0 }
      (start_bit idx E) :=
  ⟨rfl, Nat.le_refl _, Or.inl ⟨rfl, rfl⟩⟩

theorem ba_set_size (c : Config) (ba : ba_array_t) (idx v : Nat) :
    (ba_set c ba idx v).size = ba.size := by
  simp only [ba_set]; split_ifs <;> rfl

theorem ba_set_element_size_bits (c : Config) (ba : ba_array_t) (idx v : Nat) :
    (ba_set c ba idx v).element_size_bits = ba.element_size_bits := by
  simp only [ba_set]; split_ifs <;> rfl

/-- Bit `b` of the value read at `idx` is the storage bit `E - 1 - b` positions
after the start of the element, when that bit is live. -/
theorem ba_get_testBit (c : Config) (hv : c.Valid) (ba : ba_array_t) (idx : Nat)
    (hE : ba.element_size_bits ≤ c.BA_ELEMENT_TYPE_BITS) (hidx : idx < ba.size) (b : Nat) :
    (ba_get c ba idx).testBit b =
      (decide (b < ba.element_size_bits) &&
        (liveBit c (start_bit idx ba.element_size_bits)
            (start_bit idx ba.element_size_bits + ba.element_size_bits)
            (start_bit idx ba.element_size_bits + (ba.element_size_bits - 1 - b)) &&
          (ba.data (unitOf c (start_bit idx ba.element_size_bits
              + (ba.element_size_bits - 1 - b)))).testBit
            (bitOf c (start_bit idx ba.element_size_bits + (ba.element_size_bits - 1 - b))))) := by
  have h := ba_get_loop_testBit c hv ba.element_size_bits hE ba.data
    ba.element_size_bits _ _ 0 (tracks_init c idx ba.element_size_bits) (Nat.le_refl _)
    (Nat.two_pow_pos _) b
  simp only [ba_get, if_neg (Nat.not_le.2 hidx)]
  rw [h]
  simp

/-- The bits of the element written at `idx` hold the low bits of the value,
most significant first, where they are live, and keep their value where they
are not. -/
theorem ba_set_written (c : Config) (hv : c.Valid) (ba : ba_array_t) (idx v : Nat)
    (hE : ba.element_size_bits ≤ c.BA_ELEMENT_TYPE_BITS) (hidx : idx < ba.size)
    (r : Nat) (hr : r < ba.element_size_bits) :
    ((ba_set c ba idx v).data (unitOf c (start_bit idx ba.element_size_bits + r))).testBit
        (bitOf c (start_bit idx ba.element_size_bits + r))
      = if liveBit c (start_bit idx ba.element_size_bits)
            (start_bit idx ba.element_size_bits + ba.element_size_bits)
            (start_bit idx ba.element_size_bits + r) = true
        then v.testBit (ba.element_size_bits - 1 - r)
        else (ba.data (unitOf c (start_bit idx ba.element_size_bits + r))).testBit
          (bitOf c (start_bit idx ba.element_size_bits + r)) := by
  have hb := hv.bounds
  have hM : ba.element_size_bits < 2 ^ c.BA_ARRAY_SIZE_BITS := by
    calc ba.element_size_bits < 2 ^ 8 := by norm_num; omega
      _ ≤ 2 ^ c.BA_ARRAY_SIZE_BITS := Nat.pow_le_pow_right (by norm_num) hb.2.2.2.2.1
  have h := ba_set_loop_written c hv ba.element_size_bits hE v
    ba.element_size_bits _ _ ba.data (tracks_init c idx ba.element_size_bits) (Nat.le_refl _)
    hM r hr
  simp only [ba_set, if_neg (Nat.not_le.2 hidx)]
  exact h

/-- Storage bits outside the element written at `idx` keep their value. -/
theorem ba_set_frame (c : Config) (hv : c.Valid) (ba : ba_array_t) (idx v : Nat)
    (hE : ba.element_size_bits ≤ c.BA_ELEMENT_TYPE_BITS) (j p : Nat)
    (hp : p < c.BA_UNIT_SIZE_BITS)
    (hout : ∀ r, r < ba.element_size_bits →
      ¬ (unitOf c (start_bit idx ba.element_size_bits + r) = j ∧
         bitOf c (start_bit idx ba.element_size_bits + r) = p)) :
    ((ba_set c ba idx v).data j).testBit p = (ba.data j).testBit p := by
  simp only [ba_set]
  split_ifs with h
  · rfl
  · exact ba_set_loop_frame c hv ba.element_size_bits hE v
      ba.element_size_bits _ _ ba.data (tracks_init c idx ba.element_size_bits) (Nat.le_refl _)
      j p hp hout

/-- Storage units that hold no bit of the element written at `idx` keep their
value. -/
theorem ba_set_unit_frame (c : Config) (hv : c.Valid) (ba : ba_array_t) (idx v : Nat) (j : Nat)
    (hout : ∀ r, r < ba.element_size_bits →
      unitOf c (start_bit idx ba.element_size_bits + r) ≠ j) :
    (ba_set c ba idx v).data j = ba.data j := by
  simp only [ba_set]
  split_ifs with h
  · rfl
  · exact ba_set_loop_unit_frame c hv.unit_pos ba.element_size_bits v
      ba.element_size_bits _ _ ba.data (tracks_init c idx ba.element_size_bits) (Nat.le_refl _)
      j hout

/-- In a build that is safe for the element width, reading back the element
just written gives the value reduced to the element width. -/
theorem ba_get_set_same (c : Config) (hv : c.Valid) (ba : ba_array_t) (idx v : Nat)
    (hE : ba.element_size_bits ≤ c.BA_ELEMENT_TYPE_BITS)
    (hs : ShiftSafe c ba.element_size_bits) (hidx : idx < ba.size) :
    ba_get c (ba_set c ba idx v) idx = v % 2 ^ ba.element_size_bits := by
  apply Nat.eq_of_testBit_eq
  intro b
  have hE2 : (ba_set c ba idx v).element_size_bits ≤ c.BA_ELEMENT_TYPE_BITS := by
    rw [ba_set_element_size_bits]; exact hE
  have hidx2 : idx < (ba_set c ba idx v).size := by
    rw [ba_set_size]; exact hidx
  rw [ba_get_testBit c hv _ idx hE2 hidx2 b, ba_set_element_size_bits,
    Nat.testBit_mod_two_pow, liveBit_of_safe c _ _ _ hs hv.unit_pos, Bool.true_and]
  by_cases hb : b < ba.element_size_bits
  · have hw := ba_set_written c hv ba idx v hE hidx (ba.element_size_bits - 1 - b) (by omega)
    have e : ba.element_size_bits - 1 - (ba.element_size_bits - 1 - b) = b := by omega
    rw [liveBit_of_safe c _ _ _ hs hv.unit_pos, if_pos rfl, e] at hw
    rw [hw]
  · simp [hb]

/-- The iteration bound used by `ba_set` is enough: a larger bound gives the
same storage, so the loop has ended by itself. -/
theorem ba_set_fuel_enough (c : Config) (hv : c.Valid) (idx E v extra : Nat)
    (st : Nat → Nat) :
    ba_set_loop c v (E + extra)
        { idx := idx, element_bits := E, left_bits := E, bit_pos := 0, mask := 0, st_shift := 0 }
        st
      = ba_set_loop c v E
        { idx := idx, element_bits := E, left_bits := E, bit_pos := 0, mask := 0, st_shift := 0 }
        st :=
  ba_set_loop_fuel c hv.unit_pos E v E _ _ st (tracks_init c idx E) (Nat.le_refl _) extra

/-- The iteration bound used by `ba_get` is enough: a larger bound gives the
same value, so the loop has ended by itself. -/
theorem ba_get_fuel_enough (c : Config) (hv : c.Valid) (idx E extra : Nat)
    (st : Nat → Nat) :
    ba_get_loop c st (E + extra)
        { idx := idx, element_bits := E, left_bits := E, bit_pos := 0, mask := 0, st_shift := 0 }
        0
      = ba_get_loop c st E
        { idx := idx, element_bits := E, left_bits := E, bit_pos := 0, mask := 0, st_shift := 0 }
        0 :=
  ba_get_loop_fuel c hv.unit_pos E st E _ _ 0 (tracks_init c idx E) (Nat.le_refl _) extra

/-! ## Arrays inside the addressable range -/

theorem start_bit_eq (idx E size : Nat) (hi : idx < size) (h : size * E < 2 ^ 32) :
    start_bit idx E = idx * E := by
  have h1 : idx * E ≤ size * E := Nat.mul_le_mul_right E (le_of_lt hi)
  rcases Nat.eq_zero_or_pos E with h0 | hpos
  · subst h0; simp [start_bit]
  · have h2 : idx ≤ idx * E := Nat.le_mul_of_pos_right idx hpos
    simp only [start_bit]
    rw [Nat.mod_eq_of_lt (show idx < 2 ^ 32 by omega), Nat.mod_eq_of_lt (by omega)]

theorem element_bit_lt (idx E size r : Nat) (hi : idx < size) (hr : r < E) :
    idx * E + r < size * E := by
  have h1 : (idx + 1) * E ≤ size * E := Nat.mul_le_mul_right E hi
  rw [Nat.add_mul, Nat.one_mul] at h1
  omega

theorem element_bits_disjoint (i j E r q : Nat) (hij : i ≠ j) (hr : r < E) (hq : q < E) :
    i * E + r ≠ j * E + q := by
  rcases Nat.lt_or_gt_of_ne hij with h | h
  · have := element_bit_lt i E j r h hr
    omega
  · have := element_bit_lt j E i q h hq
    omega

theorem unitOf_eq (c : Config) (g : Nat)
    (h : g < c.BA_UNIT_SIZE_BITS * 2 ^ c.BA_ARRAY_SIZE_BITS) :
    unitOf c g = g / c.BA_UNIT_SIZE_BITS := by
  simp only [unitOf]
  exact Nat.mod_eq_of_lt (Nat.div_lt_of_lt_mul h)

theorem location_inj (U x y : Nat) (hU : 0 < U) (hu : x / U = y / U)
    (hb : U - 1 - x % U = U - 1 - y % U) : x = y := by
  have hx := Nat.mod_lt x hU
  have hy := Nat.mod_lt y hU
  have h1 := Nat.div_add_mod x U
  have h2 := Nat.div_add_mod y U
  rw [hu] at h1
  omega

/-- Inside the addressable range, writing one element does not change what
is read at another index. -/
theorem ba_get_set_other (c : Config) (hv : c.Valid) (ba : ba_array_t) (i j v : Nat)
    (hE : ba.element_size_bits ≤ c.BA_ELEMENT_TYPE_BITS) (hA : Addressable c ba)
    (hi : i < ba.size) (hj : j < ba.size) (hij : i ≠ j) :
    ba_get c (ba_set c ba i v) j = ba_get c ba j := by
  have hU := hv.unit_pos
  apply Nat.eq_of_testBit_eq
  intro b
  have hE2 : (ba_set c ba i v).element_size_bits ≤ c.BA_ELEMENT_TYPE_BITS := by
    rw [ba_set_element_size_bits]; exact hE
  have hj2 : j < (ba_set c ba i v).size := by
    rw [ba_set_size]; exact hj
  rw [ba_get_testBit c hv _ j hE2 hj2 b, ba_get_testBit c hv ba j hE hj b,
    ba_set_element_size_bits]
  by_cases hb : b < ba.element_size_bits
  · have hsi := start_bit_eq i ba.element_size_bits ba.size hi hA.1
    have hsj := start_bit_eq j ba.element_size_bits ba.size hj hA.1
    have hfr := ba_set_frame c hv ba i v hE
      (unitOf c (start_bit j ba.element_size_bits + (ba.element_size_bits - 1 - b)))
      (bitOf c (start_bit j ba.element_size_bits + (ba.element_size_bits - 1 - b)))
      (by simp only [bitOf]; omega)
      (by
        intro r hr hloc
        rw [hsi, hsj] at hloc
        have hx := element_bit_lt i ba.element_size_bits ba.size r hi hr
        have hy := element_bit_lt j ba.element_size_bits ba.size
          (ba.element_size_bits - 1 - b) hj (by omega)
        have hx2 := unitOf_eq c _ (lt_of_lt_of_le hx hA.2)
        have hy2 := unitOf_eq c _ (lt_of_lt_of_le hy hA.2)
        rw [hx2, hy2] at hloc
        exact element_bits_disjoint i j ba.element_size_bits r (ba.element_size_bits - 1 - b)
          hij hr (by omega) (location_inj c.BA_UNIT_SIZE_BITS _ _ hU hloc.1 hloc.2))
    rw [hfr]
  · simp [hb]

theorem ba_set_addressable (c : Config) (ba : ba_array_t) (idx v : Nat)
    (hA : Addressable c ba) : Addressable c (ba_set c ba idx v) := by
  simp only [Addressable, ba_set_size, ba_set_element_size_bits]
  exact hA

theorem ba_set_out_of_range (c : Config) (ba : ba_array_t) (idx v : Nat) (h : idx ≥ ba.size) :
    ba_set c ba idx v = ba := by
  simp only [ba_set, if_pos h]

theorem ba_set_all_size (c : Config) (ops : List (Nat × Nat)) :
    ∀ ba : ba_array_t, (ba_set_all c ba ops).size = ba.size ∧
      (ba_set_all c ba ops).element_size_bits = ba.element_size_bits := by
  induction ops with
  | nil => intro ba; exact ⟨rfl, rfl⟩
  | cons op ops ih =>
    intro ba
    have h := ih (ba_set c ba op.1 op.2)
    simp only [ba_set_all, List.foldl_cons] at h ⊢
    rw [h.1, h.2, ba_set_size, ba_set_element_size_bits]
    exact ⟨rfl, rfl⟩

/-- Inside the addressable range, in a build that is safe for the element
width, the packed array refines a plain array: after any sequence of writes
every index reads what the plain array holds. -/
theorem ba_set_all_refines (c : Config) (hv : c.Valid) (ops : List (Nat × Nat)) :
    ∀ ba : ba_array_t, ba.element_size_bits ≤ c.BA_ELEMENT_TYPE_BITS →
      ShiftSafe c ba.element_size_bits → Addressable c ba →
      ∀ i : Nat, i < ba.size →
      ba_get c (ba_set_all c ba ops) i
        = plain_set_all ba.element_size_bits ba.size (fun k => ba_get c ba k) ops i := by
  induction ops using List.reverseRecOn with
  | nil => intro ba _ _ _ i _; rfl
  | append_singleton ops op ih =>
    intro ba hE hs hA i hi
    have hsz := ba_set_all_size c ops ba
    have hE2 : (ba_set_all c ba ops).element_size_bits ≤ c.BA_ELEMENT_TYPE_BITS := by
      rw [hsz.2]; exact hE
    have hs2 : ShiftSafe c (ba_set_all c ba ops).element_size_bits := by
      rw [hsz.2]; exact hs
    have hA2 : Addressable c (ba_set_all c ba ops) := by
      simp only [Addressable, hsz.1, hsz.2]; exact hA
    have hi2 : i < (ba_set_all c ba ops).size := by rw [hsz.1]; exact hi
    have hrec := ih ba hE hs hA
    simp only [ba_set_all, plain_set_all, List.foldl_append, List.foldl_cons, List.foldl_nil]
      at hrec ⊢
    simp only [plain_set]
    by_cases hop : op.1 ≥ ba.size
    · rw [if_pos hop, ba_set_out_of_range c _ op.1 op.2 (by
        have := hsz.1; simp only [ba_set_all] at this; rw [this]; exact hop)]
      exact hrec i hi
    · rw [if_neg hop]
      have hop2 : op.1 < (List.foldl (fun b op => ba_set c b op.1 op.2) ba ops).size := by
        have := hsz.1; simp only [ba_set_all] at this; rw [this]; omega
      by_cases hio : i = op.1
      · rw [hio, Function.update_same]
        have := ba_get_set_same c hv _ op.1 op.2 hE2 hs2 (by rw [← hio]; exact hi2)
        simp only [ba_set_all] at this
        rw [this]
        have := hsz.2; simp only [ba_set_all] at this; rw [this]
      · rw [Function.update_noteq hio]
        have := ba_get_set_other c hv _ op.1 i op.2 hE2 hA2 hop2 hi2 (Ne.symm hio)
        simp only [ba_set_all] at this
        rw [this]
        exact hrec i hi

/-! ## The layout of elements over the global bit numbering -/

theorem be_value_testBit (U : Nat) (st : Nat → Nat) (off : Nat) :
    ∀ n b : Nat, (be_value U st off n).testBit b =
      (decide (b < n) && global_bit U st (off + (n - 1 - b))) := by
  intro n
  induction n with
  | zero => intro b; simp [be_value]
  | succ n ih =>
    intro b
    cases b with
    | zero =>
      have e0 : n + 1 - 1 - 0 = n := by omega
      rw [be_value, Nat.testBit_zero, e0]
      generalize global_bit U st (off + n) = d
      cases d <;> simp [Nat.add_mod]
    | succ k =>
      have hdiv : (2 * be_value U st off n + (global_bit U st (off + n)).toNat) / 2
          = be_value U st off n := by
        generalize global_bit U st (off + n) = d
        cases d <;> simp
        omega
      rw [be_value, Nat.testBit_succ, hdiv, ih k]
      by_cases hk : k < n
      · have e : n + 1 - 1 - (k + 1) = n - 1 - k := by omega
        have hk2 : k + 1 < n + 1 := by omega
        rw [decide_eq_true hk, decide_eq_true hk2, e]
      · have hk2 : ¬ (k + 1 < n + 1) := by omega
        rw [decide_eq_false hk, decide_eq_false hk2]
        simp

/-- Inside the addressable range, in a build that is safe for the element
width, `ba_get` returns the number spelled, most significant bit first, by the
global bits `idx * E .. idx * E + E - 1`. -/
theorem ba_get_layout (c : Config) (hv : c.Valid) (ba : ba_array_t) (idx : Nat)
    (hE : ba.element_size_bits ≤ c.BA_ELEMENT_TYPE_BITS)
    (hs : ShiftSafe c ba.element_size_bits) (hA : Addressable c ba)
    (hidx : idx < ba.size) :
    ba_get c ba idx
      = be_value c.BA_UNIT_SIZE_BITS ba.data (idx * ba.element_size_bits)
          ba.element_size_bits := by
  apply Nat.eq_of_testBit_eq
  intro b
  rw [ba_get_testBit c hv ba idx hE hidx b, be_value_testBit,
    liveBit_of_safe c _ _ _ hs hv.unit_pos, Bool.true_and,
    start_bit_eq idx ba.element_size_bits ba.size hidx hA.1]
  by_cases hb : b < ba.element_size_bits
  · have hx := element_bit_lt idx ba.element_size_bits ba.size
      (ba.element_size_bits - 1 - b) hidx (by omega)
    rw [unitOf_eq c _ (lt_of_lt_of_le hx hA.2)]
    rfl
  · simp [hb]

/-- Inside the addressable range, in a build that is safe for the element
width, `ba_set` stores the low `E` bits of the value in the global bits
`idx * E .. idx * E + E - 1`, most significant first, and changes no other
global bit. -/
theorem ba_set_layout (c : Config) (hv : c.Valid) (ba : ba_array_t) (idx v : Nat)
    (hE : ba.element_size_bits ≤ c.BA_ELEMENT_TYPE_BITS)
    (hs : ShiftSafe c ba.element_size_bits) (hA : Addressable c ba)
    (hidx : idx < ba.size) :
    (∀ r, r < ba.element_size_bits →
      global_bit c.BA_UNIT_SIZE_BITS (ba_set c ba idx v).data (idx * ba.element_size_bits + r)
        = v.testBit (ba.element_size_bits - 1 - r)) ∧
    (∀ g, ¬ (idx * ba.element_size_bits ≤ g ∧ g < idx * ba.element_size_bits
        + ba.element_size_bits) →
      global_bit c.BA_UNIT_SIZE_BITS (ba_set c ba idx v).data g
        = global_bit c.BA_UNIT_SIZE_BITS ba.data g) := by
  have hU := hv.unit_pos
  have hs0 := start_bit_eq idx ba.element_size_bits ba.size hidx hA.1
  constructor
  · intro r hr
    have hw := ba_set_written c hv ba idx v hE hidx r hr
    have hx := element_bit_lt idx ba.element_size_bits ba.size r hidx hr
    rw [liveBit_of_safe c _ _ _ hs hU, if_pos rfl, hs0,
      unitOf_eq c _ (lt_of_lt_of_le hx hA.2)] at hw
    exact hw
  · intro g hg
    have hgm := Nat.mod_lt g hU
    apply ba_set_frame c hv ba idx v hE (g / c.BA_UNIT_SIZE_BITS)
      (c.BA_UNIT_SIZE_BITS - 1 - g % c.BA_UNIT_SIZE_BITS) (by omega)
    intro r hr hloc
    have hx := element_bit_lt idx ba.element_size_bits ba.size r hidx hr
    rw [hs0, unitOf_eq c _ (lt_of_lt_of_le hx hA.2)] at hloc
    have := location_inj c.BA_UNIT_SIZE_BITS _ _ hU hloc.1 hloc.2
    omega

/-- With an index type of at least 32 bits, a total bit count below `2 ^ 32`
is enough for the array to be addressable. -/
theorem addressable_of_wide_index (c : Config) (ba : ba_array_t)
    (hU : 0 < c.BA_UNIT_SIZE_BITS) (hS : 32 ≤ c.BA_ARRAY_SIZE_BITS)
    (h : ba.size * ba.element_size_bits < 2 ^ 32) : Addressable c ba := by
  refine ⟨h, ?_⟩
  have h1 : 2 ^ 32 ≤ 2 ^ c.BA_ARRAY_SIZE_BITS := Nat.pow_le_pow_right (by norm_num) hS
  have h2 : 2 ^ c.BA_ARRAY_SIZE_BITS ≤ c.BA_UNIT_SIZE_BITS * 2 ^ c.BA_ARRAY_SIZE_BITS :=
    Nat.le_mul_of_pos_left _ hU
  omega

/-- When no element is wider than a unit, a total bit count below `2 ^ 32`
is enough for the array to be addressable, whatever the index type. -/
theorem addressable_of_narrow_element (c : Config) (ba : ba_array_t)
    (hEU : ba.element_size_bits ≤ c.BA_UNIT_SIZE_BITS)
    (hsz : ba.size ≤ 2 ^ c.BA_ARRAY_SIZE_BITS)
    (h : ba.size * ba.element_size_bits < 2 ^ 32) : Addressable c ba := by
  refine ⟨h, ?_⟩
  calc ba.size * ba.element_size_bits
      ≤ 2 ^ c.BA_ARRAY_SIZE_BITS * c.BA_UNIT_SIZE_BITS := Nat.mul_le_mul hsz hEU
    _ = c.BA_UNIT_SIZE_BITS * 2 ^ c.BA_ARRAY_SIZE_BITS := Nat.mul_comm _ _

/-! ## The storage sizing formula -/

theorem clear_low3_shift (x : Nat) (hx : x < 2 ^ 32) :
    (x &&& (2 ^ 32 - 1 - 7)) >>> 3 = x / 8 := by
  apply Nat.eq_of_testBit_eq
  intro i
  have e : (2 : Nat) ^ 32 - 1 - 7 = 2 ^ 32 - (7 + 1) := by norm_num
  have e8 : x / 8 = x >>> 3 := by rw [Nat.shiftRight_eq_div_pow]
  have h7 : (7 : Nat) = 2 ^ 3 - 1 := by norm_num
  rw [e8, e, Nat.testBit_shiftRight, Nat.testBit_shiftRight, Nat.testBit_and,
    Nat.testBit_two_pow_sub_succ (by norm_num), h7, Nat.testBit_two_pow_sub_one]
  by_cases h : 3 + i < 32
  · have h3 : ¬ (3 + i < 3) := by omega
    simp [h, h3]
  · have hb : x.testBit (3 + i) = false := by
      apply Nat.testBit_lt_two_pow
      calc x < 2 ^ 32 := hx
        _ ≤ 2 ^ (3 + i) := Nat.pow_le_pow_right (by norm_num) (by omega)
    simp [hb]

theorem BA_STORAGE_SIZE_BYTES_exact (num sz : Nat) (h : num * sz + 7 < 2 ^ 32) :
    BA_STORAGE_SIZE_BYTES num sz = (num * sz + 7) / 8 := by
  have hn : (num % 2 ^ 32) * sz = num * sz := by
    rcases Nat.eq_zero_or_pos sz with h0 | hpos
    · subst h0; simp
    · have : num ≤ num * sz := Nat.le_mul_of_pos_right num hpos
      rw [Nat.mod_eq_of_lt (by omega)]
  simp only [BA_STORAGE_SIZE_BYTES]
  rw [hn, Nat.mod_eq_of_lt h]
  exact clear_low3_shift _ h

/-! ## The slice width of a call -/

theorem compute_next_eq (c : Config) (d : bitdesc_t) (h : d.left_bits ≠ 0) :
    compute_next c d =
      (1, { idx := (cursor c d).idx
            element_bits := (cursor c d).element_bits
            left_bits := (cursor c d).left_bits - crt_bits c d
            bit_pos :=
              if (cursor c d).bit_pos ≥ (cursor c d).element_bits
              then (cursor c d).bit_pos - (cursor c d).element_bits
              else c.BA_UNIT_SIZE_BITS - 1
            mask := slice_mask c (crt_bits c d)
            st_shift := (cursor c d).bit_pos + 1 - crt_bits c d }) := by
  simp only [compute_next, if_neg h, cursor, crt_bits]

theorem cursor_left_bits (c : Config) (d : bitdesc_t) :
    (cursor c d).left_bits = d.left_bits ∧ (cursor c d).element_bits = d.element_bits := by
  simp only [cursor]
  split_ifs <;> exact ⟨rfl, rfl⟩

theorem crt_bits_bounds (c : Config) (d : bitdesc_t) (h : d.left_bits ≠ 0) :
    1 ≤ crt_bits c d ∧ crt_bits c d ≤ d.left_bits := by
  have hl := (cursor_left_bits c d).1
  simp only [crt_bits, BA_MIN, hl]
  split_ifs <;> omega

/-- A call of `compute_next` with bits left returns 1 and consumes between one
and `left_bits` bits. -/
theorem compute_next_consumes (c : Config) (d : bitdesc_t) (h : d.left_bits ≠ 0) :
    (compute_next c d).1 = 1 ∧
    (compute_next c d).2.left_bits = d.left_bits - crt_bits c d ∧
    (compute_next c d).2.left_bits < d.left_bits := by
  have hb := crt_bits_bounds c d h
  have hl := (cursor_left_bits c d).1
  rw [compute_next_eq c d h]
  refine ⟨rfl, ?_, ?_⟩
  · show (cursor c d).left_bits - crt_bits c d = d.left_bits - crt_bits c d
    rw [hl]
  · show (cursor c d).left_bits - crt_bits c d < d.left_bits
    rw [hl]; omega

/-! ## Builds that differ only in the outcome of the undefined shift -/

theorem slice_mask_build_free (c c2 : Config)
    (hT : c.BA_ELEMENT_TYPE_BITS = c2.BA_ELEMENT_TYPE_BITS)
    (hU : c.BA_UNIT_SIZE_BITS = c2.BA_UNIT_SIZE_BITS) (n : Nat) (h1 : 1 ≤ n)
    (hnT : n ≤ c.BA_ELEMENT_TYPE_BITS) (h : n < shift_limit c) :
    slice_mask c n = slice_mask c2 n := by
  have h2 : n < shift_limit c2 := by
    simp only [shift_limit, hU] at h ⊢
    exact h
  rw [slice_mask_defined c n h1 hnT h, slice_mask_defined c2 n h1 (by omega) h2]

theorem cursor_build_free (c c2 : Config)
    (hU : c.BA_UNIT_SIZE_BITS = c2.BA_UNIT_SIZE_BITS)
    (hS : c.BA_ARRAY_SIZE_BITS = c2.BA_ARRAY_SIZE_BITS) (d : bitdesc_t) :
    cursor c d = cursor c2 d := by
  simp only [cursor, hU, hS]

theorem crt_bits_build_free (c c2 : Config)
    (hU : c.BA_UNIT_SIZE_BITS = c2.BA_UNIT_SIZE_BITS)
    (hS : c.BA_ARRAY_SIZE_BITS = c2.BA_ARRAY_SIZE_BITS) (d : bitdesc_t) :
    crt_bits c d = crt_bits c2 d := by
  simp only [crt_bits, cursor_build_free c c2 hU hS d]

/-- A call of `compute_next` with fewer bits left than the shift limit, and no
more than the element type holds, gives
the same result in two builds with the same widths: the undefined shift is not
reached. -/
theorem compute_next_build_free (c c2 : Config)
    (hT : c.BA_ELEMENT_TYPE_BITS = c2.BA_ELEMENT_TYPE_BITS)
    (hU : c.BA_UNIT_SIZE_BITS = c2.BA_UNIT_SIZE_BITS)
    (hS : c.BA_ARRAY_SIZE_BITS = c2.BA_ARRAY_SIZE_BITS) (d : bitdesc_t)
    (h : d.left_bits < shift_limit c) (hLT : d.left_bits ≤ c.BA_ELEMENT_TYPE_BITS) :
    compute_next c d = compute_next c2 d := by
  by_cases h0 : d.left_bits = 0
  · simp only [compute_next, if_pos h0]
  · have hb := crt_bits_bounds c d h0
    rw [compute_next_eq c d h0, compute_next_eq c2 d h0, ← crt_bits_build_free c c2 hU hS d,
      ← cursor_build_free c c2 hU hS d, ← hU,
      slice_mask_build_free c c2 hT hU (crt_bits c d) hb.1 (by omega) (by omega)]

theorem ba_set_body_build_free (c c2 : Config)
    (hU : c.BA_UNIT_SIZE_BITS = c2.BA_UNIT_SIZE_BITS) (v : Nat) (bd : bitdesc_t)
    (st : Nat → Nat) : ba_set_body c v bd st = ba_set_body c2 v bd st := by
  simp only [ba_set_body, hU]

theorem ba_get_body_build_free (c c2 : Config)
    (hT : c.BA_ELEMENT_TYPE_BITS = c2.BA_ELEMENT_TYPE_BITS)
    (hU : c.BA_UNIT_SIZE_BITS = c2.BA_UNIT_SIZE_BITS) (bd : bitdesc_t)
    (st : Nat → Nat) (data : Nat) : ba_get_body c bd st data = ba_get_body c2 bd st data := by
  simp only [ba_get_body, hU, hT]

theorem ba_set_loop_build_free (c c2 : Config)
    (hT : c.BA_ELEMENT_TYPE_BITS = c2.BA_ELEMENT_TYPE_BITS)
    (hU : c.BA_UNIT_SIZE_BITS = c2.BA_UNIT_SIZE_BITS)
    (hS : c.BA_ARRAY_SIZE_BITS = c2.BA_ARRAY_SIZE_BITS) (v : Nat) :
    ∀ (fuel : Nat) (bd : bitdesc_t) (st : Nat → Nat), bd.left_bits < shift_limit c →
      bd.left_bits ≤ c.BA_ELEMENT_TYPE_BITS →
      ba_set_loop c v fuel bd st = ba_set_loop c2 v fuel bd st := by
  intro fuel
  induction fuel with
  | zero => intro bd st _ _; rfl
  | succ fuel ih =>
    intro bd st h hLT
    have e := compute_next_build_free c c2 hT hU hS bd h hLT
    rw [ba_set_loop, ba_set_loop, ← e]
    by_cases hz : (compute_next c bd).1 = 0
    · rw [if_pos hz, if_pos hz]
    · have h0 : bd.left_bits ≠ 0 := fun h0 => hz (compute_next_done c bd h0)
      have hlt := (compute_next_consumes c bd h0).2.2
      rw [if_neg hz, if_neg hz, ba_set_body_build_free c c2 hU]
      exact ih _ _ (by omega) (by omega)

theorem ba_get_loop_build_free (c c2 : Config)
    (hT : c.BA_ELEMENT_TYPE_BITS = c2.BA_ELEMENT_TYPE_BITS)
    (hU : c.BA_UNIT_SIZE_BITS = c2.BA_UNIT_SIZE_BITS)
    (hS : c.BA_ARRAY_SIZE_BITS = c2.BA_ARRAY_SIZE_BITS) (st : Nat → Nat) :
    ∀ (fuel : Nat) (bd : bitdesc_t) (data : Nat), bd.left_bits < shift_limit c →
      bd.left_bits ≤ c.BA_ELEMENT_TYPE_BITS →
      ba_get_loop c st fuel bd data = ba_get_loop c2 st fuel bd data := by
  intro fuel
  induction fuel with
  | zero => intro bd data _ _; rfl
  | succ fuel ih =>
    intro bd data h hLT
    have e := compute_next_build_free c c2 hT hU hS bd h hLT
    rw [ba_get_loop, ba_get_loop, ← e]
    by_cases hz : (compute_next c bd).1 = 0
    · rw [if_pos hz, if_pos hz]
    · have h0 : bd.left_bits ≠ 0 := fun h0 => hz (compute_next_done c bd h0)
      have hlt := (compute_next_consumes c bd h0).2.2
      rw [if_neg hz, if_neg hz, ba_get_body_build_free c c2 hT hU]
      exact ih _ _ (by omega) (by omega)

/-- A write of an element narrower than the shift limit is the same in two
builds with the same widths. -/
theorem ba_set_build_free (c c2 : Config)
    (hT : c.BA_ELEMENT_TYPE_BITS = c2.BA_ELEMENT_TYPE_BITS)
    (hU : c.BA_UNIT_SIZE_BITS = c2.BA_UNIT_SIZE_BITS)
    (hS : c.BA_ARRAY_SIZE_BITS = c2.BA_ARRAY_SIZE_BITS) (ba : ba_array_t) (idx v : Nat)
    (h : ba.element_size_bits < shift_limit c)
    (hE : ba.element_size_bits ≤ c.BA_ELEMENT_TYPE_BITS) :
    ba_set c ba idx v = ba_set c2 ba idx v := by
  simp only [ba_set]
  rw [ba_set_loop_build_free c c2 hT hU hS v _ _ _ h hE]

/-- A read of an element narrower than the shift limit is the same in two
builds with the same widths. -/
theorem ba_get_build_free (c c2 : Config)
    (hT : c.BA_ELEMENT_TYPE_BITS = c2.BA_ELEMENT_TYPE_BITS)
    (hU : c.BA_UNIT_SIZE_BITS = c2.BA_UNIT_SIZE_BITS)
    (hS : c.BA_ARRAY_SIZE_BITS = c2.BA_ARRAY_SIZE_BITS) (ba : ba_array_t) (idx : Nat)
    (h : ba.element_size_bits < shift_limit c)
    (hE : ba.element_size_bits ≤ c.BA_ELEMENT_TYPE_BITS) :
    ba_get c ba idx = ba_get c2 ba idx := by
  simp only [ba_get]
  rw [ba_get_loop_build_free c c2 hT hU hS ba.data _ _ _ h hE]

/-! ## The claims -/

/-- C1 at the failing input: the default build (all widths 32) compiled so that
the shift by the full unit width at line 55 leaves 0 and the test of line 56 is
dropped, ten 32-bit elements over zeroed storage. The only slice of element 0
is the whole unit 0 and gets the mask 0, so `ba_set(&ba, 0, 5)` leaves unit 0 at
zero and `ba_get(&ba, 0)` returns 0, where the claim says 5. -/
theorem ba_get_ba_set_loses_full_unit :
    optimisedConfig.Valid ∧ 1 ≤ wordArray.element_size_bits ∧
    wordArray.element_size_bits ≤ optimisedConfig.BA_ELEMENT_TYPE_BITS ∧
    0 < wordArray.size ∧ 5 < 2 ^ wordArray.element_size_bits ∧
    crt_bits optimisedConfig (bitdesc_init 0 32) = optimisedConfig.BA_UNIT_SIZE_BITS ∧
    (compute_next optimisedConfig (bitdesc_init 0 32)).2.mask = 0 ∧
    (ba_set optimisedConfig wordArray 0 5).data 0 = 0 ∧
    ba_get optimisedConfig (ba_set optimisedConfig wordArray 0 5) 0 = 0 := by
  decide

/-- C2 as stated fails: in the default build, with `2 ^ 31 + 1` elements of 2
bits, the bit offset of index `2 ^ 31` wraps to 0 in `uint32_t`, so writing
index 0 changes what is read at index `2 ^ 31`. -/
theorem ba_set_interferes_past_uint32 :
    defaultConfig.Valid ∧ 1 ≤ hugeArray.element_size_bits ∧
    (0 : Nat) ≠ 2 ^ 31 ∧ 0 < hugeArray.size ∧ 2 ^ 31 < hugeArray.size ∧
    ba_get defaultConfig (ba_set defaultConfig hugeArray 0 1) (2 ^ 31)
      ≠ ba_get defaultConfig hugeArray (2 ^ 31) := by
  decide

/-- C2 (non-interference, amended): for every array inside the addressable
range (total bit count below `2 ^ 32` and at most `U * 2 ^ S`) with element
width at most the element-type width, and all `i ≠ j` below `size`, `ba_get(j)`
returns the same value after `ba_set(i, v)` as before. -/
theorem ba_set_noninterference (c : Config) (hv : c.Valid) (ba : ba_array_t) (i j v : Nat)
    (hE : ba.element_size_bits ≤ c.BA_ELEMENT_TYPE_BITS) (hA : Addressable c ba)
    (hi : i < ba.size) (hj : j < ba.size) (hij : i ≠ j) :
    ba_get c (ba_set c ba i v) j = ba_get c ba j :=
  ba_get_set_other c hv ba i j v hE hA hi hj hij

theorem ba_set_noninterference_witness :
    (byteConfig.Valid ∧ byteArray.element_size_bits ≤ byteConfig.BA_ELEMENT_TYPE_BITS ∧
      Addressable byteConfig byteArray ∧ 3 < byteArray.size ∧ 4 < byteArray.size ∧
      (3 : Nat) ≠ 4) ∧
    ba_get byteConfig (ba_set byteConfig byteArray 3 2047) 4 = ba_get byteConfig byteArray 4 :=
  ⟨⟨by decide, by decide, by decide, by decide, by decide, by decide⟩,
    ba_set_noninterference byteConfig (by decide) byteArray 3 4 2047 (by decide) (by decide)
      (by decide) (by decide) (by decide)⟩

/-- C3 at the failing input: in the build with an 8-bit index, 8-bit units and
16-bit elements, the unit index of element 150 (300) is truncated to 44, the
unit of element 22; after `ba_set(150, 1); ba_set(22, 2)` the array reads 2 at
index 150 where the plain array holds 1. -/
theorem ba_set_all_narrow_index_alias :
    narrowConfig.Valid ∧ narrowArray.size * narrowArray.element_size_bits < 2 ^ 32 ∧
    150 < narrowArray.size ∧
    ba_get narrowConfig (ba_set_all narrowConfig narrowArray [(150, 1), (22, 2)]) 150 = 2 ∧
    plain_set_all narrowArray.element_size_bits narrowArray.size
      (fun k => ba_get narrowConfig narrowArray k) [(150, 1), (22, 2)] 150 = 1 := by
  decide

/-- C4 at the failing input: the default build (all widths 32) compiled so that
the shift by the full unit width at line 55 leaves 0 and the test of line 56 is
dropped, ten 32-bit elements over zeroed storage. After
`ba_set(&ba, 3, 0xFFFFFFFF)` unit 3 is still zero and `ba_get(&ba, 3)` returns
0, where the claim says `0xFFFFFFFF mod 2 ^ 32 = 0xFFFFFFFF`. -/
theorem ba_get_ba_set_drops_full_unit :
    optimisedConfig.Valid ∧
    wordArray.element_size_bits ≤ optimisedConfig.BA_ELEMENT_TYPE_BITS ∧
    3 < wordArray.size ∧ 0xFFFFFFFF < 2 ^ optimisedConfig.BA_ELEMENT_TYPE_BITS ∧
    (ba_set optimisedConfig wordArray 3 0xFFFFFFFF).data 3 = 0 ∧
    ba_get optimisedConfig (ba_set optimisedConfig wordArray 3 0xFFFFFFFF) 3 = 0 ∧
    0xFFFFFFFF % 2 ^ wordArray.element_size_bits = 0xFFFFFFFF ∧
    0xFFFFFFFF &&& ((1 <<< wordArray.element_size_bits) - 1) = 0xFFFFFFFF := by
  decide

/-- C5 (out-of-range write): for every `idx ≥ size` and every value, `ba_set`
returns the array with every storage unit unchanged; the call has no error
result. -/
theorem ba_set_out_of_range_noop (c : Config) (ba : ba_array_t) (idx v : Nat)
    (h : idx ≥ ba.size) :
    ba_set c ba idx v = ba ∧ ∀ k, (ba_set c ba idx v).data k = ba.data k := by
  have e := ba_set_out_of_range c ba idx v h
  exact ⟨e, fun k => by rw [e]⟩

theorem ba_set_out_of_range_noop_witness :
    (20 ≥ byteArray.size) ∧
    (ba_set byteConfig byteArray 20 7 = byteArray ∧
      ∀ k, (ba_set byteConfig byteArray 20 7).data k = byteArray.data k) :=
  ⟨by decide, ba_set_out_of_range_noop byteConfig byteArray 20 7 (by decide)⟩

/-- C6 (out-of-range read): for every `idx ≥ size`, `ba_get` returns 0 whatever
the storage holds. -/
theorem ba_get_out_of_range_zero (c : Config) (ba : ba_array_t) (idx : Nat)
    (h : idx ≥ ba.size) : ba_get c ba idx = 0 := by
  simp only [ba_get, if_pos h]

theorem ba_get_out_of_range_zero_witness :
    (25 ≥ byteArray.size) ∧ ba_get byteConfig byteArray 25 = 0 :=
  ⟨by decide, ba_get_out_of_range_zero byteConfig byteArray 25 (by decide)⟩

/-- C7 at the failing input: in the build with an 8-bit index, 8-bit units and
16-bit elements, element 150 starts at global bit 2400, in unit 300; with
unit 300 all ones the layout value is `0xFF00`, but `ba_get` reads units 44
and 45 and returns 0. -/
theorem ba_get_narrow_index_misreads :
    narrowConfig.Valid ∧ markedArray.size * markedArray.element_size_bits < 2 ^ 32 ∧
    markedArray.element_size_bits ≤ narrowConfig.BA_ELEMENT_TYPE_BITS ∧
    150 < markedArray.size ∧
    ba_get narrowConfig markedArray 150 = 0 ∧
    be_value narrowConfig.BA_UNIT_SIZE_BITS markedArray.data
      (150 * markedArray.element_size_bits) markedArray.element_size_bits = 65280 := by
  decide

/-- C8 at the failing input: in the build with an 8-bit index, 8-bit units and
16-bit elements, `ba_set(150, 0xFFFF)` leaves the bits of element 150 (global
bits 2400 to 2415, units 300 and 301) at zero and sets global bit 352, a bit
of element 22 in unit 44. -/
theorem ba_set_narrow_index_miswrites :
    narrowConfig.Valid ∧ narrowArray.size * narrowArray.element_size_bits < 2 ^ 32 ∧
    150 < narrowArray.size ∧
    global_bit 8 (ba_set narrowConfig narrowArray 150 65535).data 2400 = false ∧
    Nat.testBit 65535 15 = true ∧
    global_bit 8 narrowArray.data 352 = false ∧
    global_bit 8 (ba_set narrowConfig narrowArray 150 65535).data 352 = true ∧
    (ba_set narrowConfig narrowArray 150 65535).data 44 = 255 ∧
    (ba_set narrowConfig narrowArray 150 65535).data 300 = 0 := by
  decide

/-- C9 (the `TESTME` scenario): with 64-bit units, 22 elements of 3 bits and
zeroed storage, after `ba_set(0, 6)` unit 0 is `0xC000000000000000`; after the
further `ba_set(10, 3)` unit 0 is `0xC000000180000000`, that is 6 at bits
63..61 and 3 at bits 33..31, every other unit is zero, `ba_get(0)` is 6 and
`ba_get(10)` is 3; for every element-type and index width, and whatever the
build makes of the undefined shift. -/
theorem testme_scenario (T S v : Nat) (r : Bool) (hv : (testmeConfig T S v r).Valid) :
    (ba_set (testmeConfig T S v r) testmeArray 0 6).data 0 = 0xC000000000000000 ∧
    (ba_set (testmeConfig T S v r) (ba_set (testmeConfig T S v r) testmeArray 0 6) 10 3).data 0
      = 0xC000000180000000 ∧
    (0xC000000180000000 : Nat) = 6 * 2 ^ 61 + 3 * 2 ^ 31 ∧
    (∀ k, k ≠ 0 →
      (ba_set (testmeConfig T S v r) (ba_set (testmeConfig T S v r) testmeArray 0 6) 10 3).data k
        = 0) ∧
    ba_get (testmeConfig T S v r)
      (ba_set (testmeConfig T S v r) (ba_set (testmeConfig T S v r) testmeArray 0 6) 10 3) 0
      = 6 ∧
    ba_get (testmeConfig T S v r)
      (ba_set (testmeConfig T S v r) (ba_set (testmeConfig T S v r) testmeArray 0 6) 10 3) 10
      = 3 := by
  obtain ⟨hT, -, hS⟩ := hv
  simp only [testmeConfig, List.mem_cons, List.mem_singleton, List.not_mem_nil, or_false]
    at hT hS
  have hlim : ∀ ba : ba_array_t, ba.element_size_bits = 3 →
      ba.element_size_bits < shift_limit (testmeConfig T S v r) := by
    intro ba h
    rw [h]
    simp [shift_limit, testmeConfig]
  have hfit : ∀ ba : ba_array_t, ba.element_size_bits = 3 →
      ba.element_size_bits ≤ (testmeConfig T S v r).BA_ELEMENT_TYPE_BITS := by
    intro ba h
    rw [h]
    simp only [testmeConfig]
    omega
  have e1 : ∀ (ba : ba_array_t) (x y : Nat), ba.element_size_bits = 3 →
      ba_set (testmeConfig T S v r) ba x y = ba_set (testmeConfig T S 0 true) ba x y :=
    fun ba x y h => ba_set_build_free (testmeConfig T S v r) (testmeConfig T S 0 true)
      rfl rfl rfl ba x y (hlim ba h) (hfit ba h)
  have e2 : ∀ (ba : ba_array_t) (x : Nat), ba.element_size_bits = 3 →
      ba_get (testmeConfig T S v r) ba x = ba_get (testmeConfig T S 0 true) ba x :=
    fun ba x h => ba_get_build_free (testmeConfig T S v r) (testmeConfig T S 0 true)
      rfl rfl rfl ba x (hlim ba h) (hfit ba h)
  have h1 : (ba_set (testmeConfig T S 0 true) testmeArray 0 6).element_size_bits = 3 :=
    ba_set_element_size_bits _ _ _ _
  have h2 : (ba_set (testmeConfig T S 0 true)
      (ba_set (testmeConfig T S 0 true) testmeArray 0 6) 10 3).element_size_bits = 3 := by
    rw [ba_set_element_size_bits]; exact h1
  rw [e1 testmeArray 0 6 rfl, e1 _ 10 3 h1, e2 _ 0 h2, e2 _ 10 h2]
  rcases hT with rfl | rfl | rfl | rfl <;> rcases hS with rfl | rfl | rfl | rfl <;>
    refine ⟨by decide, by decide, by decide, ?_, by decide, by decide⟩ <;>
    intro k hk <;>
    simp [testmeConfig, testmeArray, ba_init, ba_set, ba_set_loop, ba_set_body, compute_next,
      BA_MIN, slice_mask, naive_mask, shift_limit, Function.update, hk]

theorem testme_scenario_witness :
    (testmeConfig 32 32 0 true).Valid ∧
    (ba_set (testmeConfig 32 32 0 true) testmeArray 0 6).data 0 = 0xC000000000000000 ∧
    ba_get (testmeConfig 32 32 0 true)
      (ba_set (testmeConfig 32 32 0 true) (ba_set (testmeConfig 32 32 0 true) testmeArray 0 6)
        10 3) 0 = 6 :=
  ⟨by decide, (testme_scenario 32 32 0 true (by decide)).1,
    (testme_scenario 32 32 0 true (by decide)).2.2.2.2.1⟩

/-- C10 as stated fails: for `2 ^ 29` elements of 8 bits the bit count `2 ^ 32`
wraps to 0 in `uint32_t`, so the macro gives 0 bytes where `2 ^ 29` are
needed. -/
theorem BA_STORAGE_SIZE_BYTES_wraps :
    BA_STORAGE_SIZE_BYTES (2 ^ 29) 8 = 0 ∧ (2 ^ 29 * 8 + 7) / 8 = 2 ^ 29 ∧
    BA_STORAGE_SIZE_BYTES (2 ^ 29) 8 ≠ (2 ^ 29 * 8 + 7) / 8 := by
  decide

/-- C10 (storage sizing, amended): whenever `num * sz + 7` fits `uint32_t`,
`BA_STORAGE_SIZE_BYTES(num, sz)` is the bit count rounded up to whole bytes:
it equals `(num * sz + 7) / 8`, the least byte count holding `num * sz` bits. -/
theorem BA_STORAGE_SIZE_BYTES_rounds_up (num sz : Nat) (h : num * sz + 7 < 2 ^ 32) :
    BA_STORAGE_SIZE_BYTES num sz = (num * sz + 7) / 8 ∧
    num * sz ≤ 8 * BA_STORAGE_SIZE_BYTES num sz ∧
    8 * BA_STORAGE_SIZE_BYTES num sz < num * sz + 8 := by
  rw [BA_STORAGE_SIZE_BYTES_exact num sz h]
  omega

theorem BA_STORAGE_SIZE_BYTES_rounds_up_witness :
    (1000 * 3 + 7 < 2 ^ 32) ∧
    (BA_STORAGE_SIZE_BYTES 1000 3 = (1000 * 3 + 7) / 8 ∧
      1000 * 3 ≤ 8 * BA_STORAGE_SIZE_BYTES 1000 3 ∧
      8 * BA_STORAGE_SIZE_BYTES 1000 3 < 1000 * 3 + 8) :=
  ⟨by decide, BA_STORAGE_SIZE_BYTES_rounds_up 1000 3 (by decide)⟩

/-! ## The trace of calls -/

theorem ba_set_loop_eq_foldl (c : Config) (v : Nat) :
    ∀ (fuel : Nat) (bd : bitdesc_t) (st : Nat → Nat),
      ba_set_loop c v fuel bd st
        = (calls c fuel bd).foldl (fun s d => ba_set_body c v (compute_next c d).2 s) st := by
  intro fuel
  induction fuel with
  | zero => intro bd st; rfl
  | succ fuel ih =>
    intro bd st
    by_cases h : (compute_next c bd).1 = 0
    · simp only [ba_set_loop, calls, if_pos h, List.foldl_nil]
    · simp only [ba_set_loop, calls, if_neg h, List.foldl_cons]
      exact ih _ _

theorem ba_get_loop_eq_foldl (c : Config) (st : Nat → Nat) :
    ∀ (fuel : Nat) (bd : bitdesc_t) (data : Nat),
      ba_get_loop c st fuel bd data
        = (calls c fuel bd).foldl (fun a d => ba_get_body c (compute_next c d).2 st a) data := by
  intro fuel
  induction fuel with
  | zero => intro bd data; rfl
  | succ fuel ih =>
    intro bd data
    by_cases h : (compute_next c bd).1 = 0
    · simp only [ba_get_loop, calls, if_pos h, List.foldl_nil]
    · simp only [ba_get_loop, calls, if_neg h, List.foldl_cons]
      exact ih _ _

/-- The storage after `ba_set` is the fold of the loop body over the calls of
`ba_calls`: the units of `ba_units` are the only ones the loop touches. -/
theorem ba_set_eq_foldl (c : Config) (ba : ba_array_t) (idx v : Nat) :
    (ba_set c ba idx v).data
      = (ba_calls c ba idx).foldl (fun s d => ba_set_body c v (compute_next c d).2 s)
          ba.data := by
  simp only [ba_set, ba_calls]
  split_ifs with h
  · rfl
  · exact ba_set_loop_eq_foldl c v _ _ _

theorem ba_get_eq_foldl (c : Config) (ba : ba_array_t) (idx : Nat) :
    ba_get c ba idx
      = (ba_calls c ba idx).foldl (fun a d => ba_get_body c (compute_next c d).2 ba.data a)
          0 := by
  simp only [ba_get, ba_calls]
  split_ifs with h
  · rfl
  · exact ba_get_loop_eq_foldl c ba.data _ _ _

/-- The loop body of `ba_get` depends on the storage only through the unit of
its call. -/
theorem ba_get_body_congr (c : Config) (bd : bitdesc_t) (st1 st2 : Nat → Nat) (data : Nat)
    (h : st1 bd.idx = st2 bd.idx) : ba_get_body c bd st1 data = ba_get_body c bd st2 data := by
  simp only [ba_get_body, h]

/-- What one call does under the tracking relation, in terms of the cursor
and of `crt_bits`. -/
theorem cursor_step (c : Config) (hU : 0 < c.BA_UNIT_SIZE_BITS) (E : Nat)
    (bd : bitdesc_t) (g : Nat) (h : Tracks c E bd g) (hL : 0 < bd.left_bits) :
    (cursor c bd).idx = unitOf c g ∧
    (cursor c bd).bit_pos = c.BA_UNIT_SIZE_BITS - 1 - g % c.BA_UNIT_SIZE_BITS ∧
    crt_bits c bd = sliceBits c g bd.left_bits := by
  obtain ⟨T, U, S, fv, zr⟩ := c
  obtain ⟨idx, eb, L, bp, mk, sh⟩ := bd
  simp only at hU hL
  obtain ⟨hE, hLE, hcase⟩ := h
  simp only at hE hLE hcase
  subst hE
  have hgm := Nat.mod_lt g hU
  rcases hcase with ⟨hLeq, hg⟩ | ⟨hlt, hrest⟩
  · subst hLeq
    have hg2 : g = (idx % 2 ^ 32 * L) % 2 ^ 32 := hg
    have hbp : U - 1 - g % U + 1 = U - g % U := by omega
    simp only [cursor, crt_bits, if_true, ← hg2, hbp, sliceBits, unitOf, BA_MIN, true_and]
    split_ifs <;> omega
  · obtain ⟨hbpU, hg0, hidx⟩ := hrest hL
    have hne : ¬ (eb = L) := by omega
    have hbp : U - 1 + 1 = U := by omega
    simp only [cursor, crt_bits, if_neg hne, hbpU, if_true, hbp, sliceBits, hg0, Nat.sub_zero,
      BA_MIN, true_and]
    refine ⟨hidx, ?_⟩
    split_ifs <;> omega

theorem calls_nil_of_done (c : Config) (fuel : Nat) (bd : bitdesc_t) (h : bd.left_bits = 0) :
    calls c fuel bd = [] := by
  cases fuel with
  | zero => rfl
  | succ f => simp only [calls, if_pos (compute_next_done c bd h)]

theorem calls_cons (c : Config) (hU : 0 < c.BA_UNIT_SIZE_BITS) (E : Nat) (fuel : Nat)
    (bd : bitdesc_t) (g : Nat) (h : Tracks c E bd g) (hL : 0 < bd.left_bits) :
    calls c (fuel + 1) bd = bd :: calls c fuel (compute_next c bd).2 := by
  have h1 := (compute_next_step c hU E bd g h hL).1
  simp only [calls, if_neg (show ¬ (compute_next c bd).1 = 0 by omega)]

/-- Every call in the trace stands at a global bit inside the remaining
range of the element and has bits left to consume. -/
theorem calls_tracks (c : Config) (hU : 0 < c.BA_UNIT_SIZE_BITS) (E : Nat) :
    ∀ (fuel : Nat) (bd : bitdesc_t) (g : Nat), Tracks c E bd g → bd.left_bits ≤ fuel →
      ∀ d, d ∈ calls c fuel bd →
        ∃ g2, Tracks c E d g2 ∧ 0 < d.left_bits ∧ g ≤ g2 ∧
          g2 + d.left_bits = g + bd.left_bits := by
  intro fuel
  induction fuel with
  | zero => intro bd g _ _ d hd; simp [calls] at hd
  | succ fuel ih =>
    intro bd g ht hf d hd
    by_cases hL : bd.left_bits = 0
    · rw [calls_nil_of_done c _ bd hL] at hd
      simp at hd
    · have hLpos : 0 < bd.left_bits := Nat.pos_of_ne_zero hL
      obtain ⟨-, -, hleft, -, -, htr⟩ := compute_next_step c hU E bd g ht hLpos
      have hn1 := sliceBits_pos c hU g bd.left_bits hLpos
      have hn2 := sliceBits_le c g bd.left_bits
      rw [calls_cons c hU E fuel bd g ht hLpos, List.mem_cons] at hd
      rcases hd with rfl | hd
      · exact ⟨g, ht, hLpos, Nat.le_refl _, rfl⟩
      · obtain ⟨g2, h1, h2, h3, h4⟩ := ih _ _ htr (by rw [hleft]; omega) d hd
        rw [hleft] at h4
        exact ⟨g2, h1, h2, by omega, by omega⟩

/-- The slice widths of one operation add up to the element width. -/
theorem calls_sum (c : Config) (hU : 0 < c.BA_UNIT_SIZE_BITS) (E : Nat) :
    ∀ (fuel : Nat) (bd : bitdesc_t) (g : Nat), Tracks c E bd g → bd.left_bits ≤ fuel →
      ((calls c fuel bd).map (crt_bits c)).sum = bd.left_bits := by
  intro fuel
  induction fuel with
  | zero => intro bd g _ hf; simp only [calls, List.map_nil, List.sum_nil]; omega
  | succ fuel ih =>
    intro bd g ht hf
    by_cases hL : bd.left_bits = 0
    · rw [calls_nil_of_done c _ bd hL, hL]; rfl
    · have hLpos : 0 < bd.left_bits := Nat.pos_of_ne_zero hL
      obtain ⟨-, -, hleft, -, -, htr⟩ := compute_next_step c hU E bd g ht hLpos
      have hn1 := sliceBits_pos c hU g bd.left_bits hLpos
      have hn2 := sliceBits_le c g bd.left_bits
      have hcrt := (cursor_step c hU E bd g ht hLpos).2.2
      rw [calls_cons c hU E fuel bd g ht hLpos, List.map_cons, List.sum_cons,
        ih _ _ htr (by rw [hleft]; omega), hleft, hcrt]
      omega

/-- The number of calls is the number of units met by the remaining bit range. -/
theorem calls_length (c : Config) (hU : 0 < c.BA_UNIT_SIZE_BITS) (E : Nat) :
    ∀ (fuel : Nat) (bd : bitdesc_t) (g : Nat), Tracks c E bd g → bd.left_bits ≤ fuel →
      (calls c fuel bd).length
        ≤ (bd.left_bits + g % c.BA_UNIT_SIZE_BITS + c.BA_UNIT_SIZE_BITS - 1)
            / c.BA_UNIT_SIZE_BITS := by
  intro fuel
  induction fuel with
  | zero => intro bd g _ _; simp [calls]
  | succ fuel ih =>
    intro bd g ht hf
    by_cases hL : bd.left_bits = 0
    · rw [calls_nil_of_done c _ bd hL]; simp
    · have hLpos : 0 < bd.left_bits := Nat.pos_of_ne_zero hL
      obtain ⟨-, -, hleft, -, -, htr⟩ := compute_next_step c hU E bd g ht hLpos
      have hn1 := sliceBits_pos c hU g bd.left_bits hLpos
      have hn2 := sliceBits_le c g bd.left_bits
      have hgm := Nat.mod_lt g hU
      have hrec := ih _ _ htr (by rw [hleft]; omega)
      rw [calls_cons c hU E fuel bd g ht hLpos, List.length_cons]
      by_cases hrest : bd.left_bits - sliceBits c g bd.left_bits = 0
      · have hnil := calls_nil_of_done c fuel (compute_next c bd).2 (by rw [hleft]; exact hrest)
        rw [hnil, List.length_nil]
        exact (Nat.le_div_iff_mul_le hU).2 (by omega)
      · have hfull : sliceBits c g bd.left_bits
            = c.BA_UNIT_SIZE_BITS - g % c.BA_UNIT_SIZE_BITS := by
          simp only [sliceBits] at hrest ⊢; omega
        have hnb := next_boundary g c.BA_UNIT_SIZE_BITS hU
        rw [← hfull] at hnb
        rw [hleft, hnb.1, Nat.add_zero] at hrec
        have e : bd.left_bits + g % c.BA_UNIT_SIZE_BITS + c.BA_UNIT_SIZE_BITS - 1
            = (bd.left_bits - sliceBits c g bd.left_bits + c.BA_UNIT_SIZE_BITS - 1)
              + c.BA_UNIT_SIZE_BITS := by omega
        rw [e, Nat.add_div_right _ hU]
        omega

/-- The units of the calls are consecutive, starting at the unit of the
cursor and counted in the index type. -/
theorem calls_units (c : Config) (hU : 0 < c.BA_UNIT_SIZE_BITS) (E : Nat) :
    ∀ (fuel : Nat) (bd : bitdesc_t) (g : Nat), Tracks c E bd g → bd.left_bits ≤ fuel →
      (calls c fuel bd).map (call_unit c)
        = (List.range (calls c fuel bd).length).map
            (fun i => (g / c.BA_UNIT_SIZE_BITS + i) % 2 ^ c.BA_ARRAY_SIZE_BITS) := by
  intro fuel
  induction fuel with
  | zero => intro bd g _ _; simp [calls]
  | succ fuel ih =>
    intro bd g ht hf
    by_cases hL : bd.left_bits = 0
    · rw [calls_nil_of_done c _ bd hL]; simp
    · have hLpos : 0 < bd.left_bits := Nat.pos_of_ne_zero hL
      obtain ⟨-, hidx, hleft, -, -, htr⟩ := compute_next_step c hU E bd g ht hLpos
      have hn1 := sliceBits_pos c hU g bd.left_bits hLpos
      have hn2 := sliceBits_le c g bd.left_bits
      rw [calls_cons c hU E fuel bd g ht hLpos, List.map_cons, List.length_cons,
        List.range_succ_eq_map, List.map_cons, List.map_map]
      have hhead : call_unit c bd = (g / c.BA_UNIT_SIZE_BITS + 0) % 2 ^ c.BA_ARRAY_SIZE_BITS := by
        simp only [call_unit, hidx, unitOf, Nat.add_zero]
      rw [hhead]
      congr 1
      by_cases hrest : bd.left_bits - sliceBits c g bd.left_bits = 0
      · have hnil := calls_nil_of_done c fuel (compute_next c bd).2 (by rw [hleft]; exact hrest)
        rw [hnil]; rfl
      · have hfull : sliceBits c g bd.left_bits
            = c.BA_UNIT_SIZE_BITS - g % c.BA_UNIT_SIZE_BITS := by
          simp only [sliceBits] at hrest ⊢; omega
        have hnb := next_boundary g c.BA_UNIT_SIZE_BITS hU
        rw [← hfull] at hnb
        rw [ih _ _ htr (by rw [hleft]; omega), hnb.2]
        apply List.map_congr_left
        intro i _
        simp only [Function.comp, Nat.succ_eq_add_one]
        congr 1
        omega

/-- When a slice is followed by another one, it ends at the low end of its
unit and the next one starts at the top of the following unit, the unit
index being counted in the index type. -/
theorem advance_step (c : Config) (hU : 0 < c.BA_UNIT_SIZE_BITS) (E : Nat)
    (bd : bitdesc_t) (g : Nat) (h : Tracks c E bd g) (hL : 0 < bd.left_bits)
    (hnext : (compute_next c bd).2.left_bits ≠ 0) :
    (compute_next c bd).2.st_shift = 0 ∧
    call_unit c (compute_next c bd).2
      = (call_unit c bd + 1) % 2 ^ c.BA_ARRAY_SIZE_BITS ∧
    (compute_next c (compute_next c bd).2).2.st_shift
      + crt_bits c (compute_next c bd).2 = c.BA_UNIT_SIZE_BITS := by
  obtain ⟨-, hidx, hleft, -, hshift, htr⟩ := compute_next_step c hU E bd g h hL
  have hn2 := sliceBits_le c g bd.left_bits
  have hgm := Nat.mod_lt g hU
  rw [hleft] at hnext
  have hfull : sliceBits c g bd.left_bits
      = c.BA_UNIT_SIZE_BITS - g % c.BA_UNIT_SIZE_BITS := by
    simp only [sliceBits] at hnext ⊢; omega
  have hnb := next_boundary g c.BA_UNIT_SIZE_BITS hU
  rw [← hfull] at hnb
  have hpos2 : 0 < (compute_next c bd).2.left_bits := by rw [hleft]; omega
  obtain ⟨-, hidx2, -, -, hshift2, -⟩ :=
    compute_next_step c hU E (compute_next c bd).2 _ htr hpos2
  have hc2 := (cursor_step c hU E (compute_next c bd).2 _ htr hpos2).2.2
  have hn3 := sliceBits_le c (g + sliceBits c g bd.left_bits) (compute_next c bd).2.left_bits
  refine ⟨by rw [hshift]; omega, ?_, ?_⟩
  · simp only [call_unit, hidx, hidx2, unitOf, hnb.2]
    rw [Nat.add_mod (g / c.BA_UNIT_SIZE_BITS) 1,
      Nat.add_mod (g / c.BA_UNIT_SIZE_BITS % 2 ^ c.BA_ARRAY_SIZE_BITS) 1, Nat.mod_mod]
  · rw [hshift2, hc2, hnb.1]
    rw [hnb.1] at hn3
    omega

/-! ## Whole storage units after a write -/

theorem eq_of_testBit_below (a b U : Nat) (ha : a < 2 ^ U) (hb : b < 2 ^ U)
    (h : ∀ p, p < U → a.testBit p = b.testBit p) : a = b := by
  apply Nat.eq_of_testBit_eq
  intro p
  by_cases hp : p < U
  · exact h p hp
  · have hle : 2 ^ U ≤ 2 ^ p := Nat.pow_le_pow_right (by norm_num) (by omega)
    rw [Nat.testBit_lt_two_pow (lt_of_lt_of_le ha hle),
      Nat.testBit_lt_two_pow (lt_of_lt_of_le hb hle)]

theorem ba_set_body_same_lt (c : Config) (v : Nat) (bd : bitdesc_t) (st : Nat → Nat) :
    ba_set_body c v bd st bd.idx < 2 ^ c.BA_UNIT_SIZE_BITS := by
  simp only [ba_set_body, Function.update_same]
  exact Nat.mod_lt _ (Nat.two_pow_pos _)

/-- A unit after the write loop is either untouched or a value of the unit
type. -/
theorem ba_set_loop_cases (c : Config) (v : Nat) :
    ∀ (fuel : Nat) (bd : bitdesc_t) (st : Nat → Nat) (j : Nat),
      ba_set_loop c v fuel bd st j = st j ∨
      ba_set_loop c v fuel bd st j < 2 ^ c.BA_UNIT_SIZE_BITS := by
  intro fuel
  induction fuel with
  | zero => intro bd st j; exact Or.inl rfl
  | succ fuel ih =>
    intro bd st j
    by_cases h : (compute_next c bd).1 = 0
    · simp only [ba_set_loop, if_pos h]; exact Or.inl trivial
    · simp only [ba_set_loop, if_neg h]
      rcases ih (compute_next c bd).2 (ba_set_body c v (compute_next c bd).2 st) j with h1 | h1
      · by_cases hj : j = (compute_next c bd).2.idx
        · right
          rw [h1, hj]
          exact ba_set_body_same_lt c v _ st
        · left
          rw [h1]
          exact ba_set_body_other c v _ st j hj
      · exact Or.inr h1

/-- Every unit that holds a bit of the remaining range is, after the write
loop, a value of the unit type. -/
theorem ba_set_loop_touched_lt (c : Config) (hU : 0 < c.BA_UNIT_SIZE_BITS) (E : Nat) (v : Nat) :
    ∀ (fuel : Nat) (bd : bitdesc_t) (g : Nat) (st : Nat → Nat), Tracks c E bd g →
      bd.left_bits ≤ fuel → ∀ r : Nat, r < bd.left_bits →
      ba_set_loop c v fuel bd st (unitOf c (g + r)) < 2 ^ c.BA_UNIT_SIZE_BITS := by
  intro fuel
  induction fuel with
  | zero => intro bd g st _ hf r hr; omega
  | succ fuel ih =>
    intro bd g st ht hf r hr
    have hLpos : 0 < bd.left_bits := by omega
    obtain ⟨h1, hidx, hleft, -, -, htr⟩ := compute_next_step c hU E bd g ht hLpos
    have hn1 := sliceBits_pos c hU g bd.left_bits hLpos
    have hn2 := sliceBits_le c g bd.left_bits
    have hne : ¬ ((compute_next c bd).1 = 0) := by omega
    rw [ba_set_loop, if_neg hne]
    by_cases hrn : r < sliceBits c g bd.left_bits
    · have hw := within_unit g r c.BA_UNIT_SIZE_BITS hU (by omega)
      have hu : unitOf c (g + r) = (compute_next c bd).2.idx := by
        rw [hidx]; simp only [unitOf, hw.1]
      rcases ba_set_loop_cases c v fuel (compute_next c bd).2
        (ba_set_body c v (compute_next c bd).2 st) (unitOf c (g + r)) with h2 | h2
      · rw [h2, hu]
        exact ba_set_body_same_lt c v _ st
      · exact h2
    · have hrec := ih (compute_next c bd).2 (g + sliceBits c g bd.left_bits)
        (ba_set_body c v (compute_next c bd).2 st) htr (by rw [hleft]; omega)
        (r - sliceBits c g bd.left_bits) (by rw [hleft]; omega)
      have e1 : g + sliceBits c g bd.left_bits + (r - sliceBits c g bd.left_bits) = g + r := by
        omega
      rw [e1] at hrec
      exact hrec

theorem ba_set_touched_lt (c : Config) (hv : c.Valid) (ba : ba_array_t) (idx v : Nat)
    (hidx : idx < ba.size) (r : Nat) (hr : r < ba.element_size_bits) :
    (ba_set c ba idx v).data (unitOf c (start_bit idx ba.element_size_bits + r))
      < 2 ^ c.BA_UNIT_SIZE_BITS := by
  simp only [ba_set, if_neg (Nat.not_le.2 hidx)]
  exact ba_set_loop_touched_lt c hv.unit_pos ba.element_size_bits v ba.element_size_bits _ _
    ba.data (tracks_init c idx ba.element_size_bits) (Nat.le_refl _) r hr

/-- A write keeps every unit a value of the unit type. -/
theorem ba_set_wf (c : Config) (ba : ba_array_t) (idx v : Nat) (h : WfStorage c ba.data) :
    WfStorage c (ba_set c ba idx v).data := by
  intro k
  simp only [ba_set]
  split_ifs with hi
  · exact h k
  · show ba_set_loop c v ba.element_size_bits
        { idx := idx, element_bits := ba.element_size_bits,
          left_bits := ba.element_size_bits, bit_pos := 0, mask := 0, st_shift := 0 }
        ba.data k < 2 ^ c.BA_UNIT_SIZE_BITS
    rcases ba_set_loop_cases c v ba.element_size_bits
        { idx := idx, element_bits := ba.element_size_bits,
          left_bits := ba.element_size_bits, bit_pos := 0, mask := 0, st_shift := 0 }
        ba.data k with h1 | h1
    · rw [h1]; exact h k
    · exact h1

/-- Writing an element twice leaves the storage of the second write alone. -/
theorem ba_set_set_same (c : Config) (hv : c.Valid) (ba : ba_array_t) (idx a b : Nat)
    (hE : ba.element_size_bits ≤ c.BA_ELEMENT_TYPE_BITS) (hidx : idx < ba.size) :
    (ba_set c (ba_set c ba idx a) idx b).data = (ba_set c ba idx b).data := by
  have hE2 : (ba_set c ba idx a).element_size_bits ≤ c.BA_ELEMENT_TYPE_BITS := by
    rw [ba_set_element_size_bits]; exact hE
  have hidx2 : idx < (ba_set c ba idx a).size := by rw [ba_set_size]; exact hidx
  have hEa : (ba_set c ba idx a).element_size_bits = ba.element_size_bits :=
    ba_set_element_size_bits c ba idx a
  funext j
  by_cases ht : ∃ r, r < ba.element_size_bits ∧
      unitOf c (start_bit idx ba.element_size_bits + r) = j
  · obtain ⟨r, hr, hj⟩ := ht
    have hX := ba_set_touched_lt c hv (ba_set c ba idx a) idx b hidx2 r (by rw [hEa]; exact hr)
    have hY := ba_set_touched_lt c hv ba idx b hidx r hr
    rw [hEa, hj] at hX
    rw [hj] at hY
    apply eq_of_testBit_below _ _ _ hX hY
    intro p hp
    by_cases hb : ∃ q, q < ba.element_size_bits ∧
        unitOf c (start_bit idx ba.element_size_bits + q) = j ∧
        bitOf c (start_bit idx ba.element_size_bits + q) = p
    · obtain ⟨q, hq, hqj, hqp⟩ := hb
      have h1 := ba_set_written c hv (ba_set c ba idx a) idx b hE2 hidx2 q (by rw [hEa]; exact hq)
      have h2 := ba_set_written c hv ba idx b hE hidx q hq
      have h3 := ba_set_written c hv ba idx a hE hidx q hq
      rw [hEa, hqj, hqp] at h1
      rw [hqj, hqp] at h2 h3
      rw [h1, h2, h3]
      split_ifs <;> rfl
    · have hout : ∀ q, q < ba.element_size_bits →
          ¬ (unitOf c (start_bit idx ba.element_size_bits + q) = j ∧
             bitOf c (start_bit idx ba.element_size_bits + q) = p) :=
        fun q hq hloc => hb ⟨q, hq, hloc.1, hloc.2⟩
      have h1 := ba_set_frame c hv (ba_set c ba idx a) idx b hE2 j p hp
        (by rw [hEa]; exact hout)
      have h2 := ba_set_frame c hv ba idx b hE j p hp hout
      have h3 := ba_set_frame c hv ba idx a hE j p hp hout
      rw [h1, h2, h3]
  · have hout : ∀ r, r < ba.element_size_bits →
        unitOf c (start_bit idx ba.element_size_bits + r) ≠ j :=
      fun r hr hj => ht ⟨r, hr, hj⟩
    rw [ba_set_unit_frame c hv (ba_set c ba idx a) idx b j (by rw [hEa]; exact hout),
      ba_set_unit_frame c hv ba idx a j hout, ba_set_unit_frame c hv ba idx b j hout]

/-- Writing back the value just read leaves well-formed storage as it was. -/
theorem ba_set_get_same (c : Config) (hv : c.Valid) (ba : ba_array_t) (idx : Nat)
    (hE : ba.element_size_bits ≤ c.BA_ELEMENT_TYPE_BITS) (hw : WfStorage c ba.data)
    (hidx : idx < ba.size) :
    (ba_set c ba idx (ba_get c ba idx)).data = ba.data := by
  funext j
  by_cases ht : ∃ r, r < ba.element_size_bits ∧
      unitOf c (start_bit idx ba.element_size_bits + r) = j
  · obtain ⟨r, hr, hj⟩ := ht
    have hX := ba_set_touched_lt c hv ba idx (ba_get c ba idx) hidx r hr
    rw [hj] at hX
    apply eq_of_testBit_below _ _ _ hX (hw j)
    intro p hp
    by_cases hb : ∃ q, q < ba.element_size_bits ∧
        unitOf c (start_bit idx ba.element_size_bits + q) = j ∧
        bitOf c (start_bit idx ba.element_size_bits + q) = p
    · obtain ⟨q, hq, hqj, hqp⟩ := hb
      have h1 := ba_set_written c hv ba idx (ba_get c ba idx) hE hidx q hq
      have h2 := ba_get_testBit c hv ba idx hE hidx (ba.element_size_bits - 1 - q)
      have e : ba.element_size_bits - 1 - (ba.element_size_bits - 1 - q) = q := by omega
      have hlt : ba.element_size_bits - 1 - q < ba.element_size_bits := by omega
      rw [e, decide_eq_true hlt, Bool.true_and, hqj, hqp] at h2
      rw [hqj, hqp] at h1
      rw [h1, h2]
      split_ifs with hl
      · rw [hl, Bool.true_and]
      · rfl
    · exact ba_set_frame c hv ba idx _ hE j p hp
        (fun q hq hloc => hb ⟨q, hq, hloc.1, hloc.2⟩)
  · exact ba_set_unit_frame c hv ba idx _ j (fun r hr hj => ht ⟨r, hr, hj⟩)

/-! ## Writes to different elements -/

theorem locations_disjoint (c : Config) (hU : 0 < c.BA_UNIT_SIZE_BITS) (ba : ba_array_t)
    (hA : Addressable c ba) (i j : Nat) (hi : i < ba.size) (hj : j < ba.size) (hij : i ≠ j)
    (r q : Nat) (hr : r < ba.element_size_bits) (hq : q < ba.element_size_bits) :
    ¬ (unitOf c (start_bit i ba.element_size_bits + r)
          = unitOf c (start_bit j ba.element_size_bits + q) ∧
       bitOf c (start_bit i ba.element_size_bits + r)
          = bitOf c (start_bit j ba.element_size_bits + q)) := by
  intro hloc
  rw [start_bit_eq i ba.element_size_bits ba.size hi hA.1,
    start_bit_eq j ba.element_size_bits ba.size hj hA.1] at hloc
  have hx := element_bit_lt i ba.element_size_bits ba.size r hi hr
  have hy := element_bit_lt j ba.element_size_bits ba.size q hj hq
  rw [unitOf_eq c _ (lt_of_lt_of_le hx hA.2), unitOf_eq c _ (lt_of_lt_of_le hy hA.2)] at hloc
  exact element_bits_disjoint i j ba.element_size_bits r q hij hr hq
    (location_inj c.BA_UNIT_SIZE_BITS _ _ hU hloc.1 hloc.2)

/-- One bit of the storage after a write: the bit of the value when the
location belongs to the element and is live, the old bit otherwise. -/
theorem ba_set_bit_cases (c : Config) (hv : c.Valid) (ba : ba_array_t) (idx v : Nat)
    (hE : ba.element_size_bits ≤ c.BA_ELEMENT_TYPE_BITS) (hidx : idx < ba.size) (k p : Nat)
    (hp : p < c.BA_UNIT_SIZE_BITS) :
    (∃ r, r < ba.element_size_bits ∧
        unitOf c (start_bit idx ba.element_size_bits + r) = k ∧
        bitOf c (start_bit idx ba.element_size_bits + r) = p ∧
        ((ba_set c ba idx v).data k).testBit p =
          if liveBit c (start_bit idx ba.element_size_bits)
              (start_bit idx ba.element_size_bits + ba.element_size_bits)
              (start_bit idx ba.element_size_bits + r) = true
          then v.testBit (ba.element_size_bits - 1 - r) else (ba.data k).testBit p) ∨
    ((∀ r, r < ba.element_size_bits →
        ¬ (unitOf c (start_bit idx ba.element_size_bits + r) = k ∧
           bitOf c (start_bit idx ba.element_size_bits + r) = p)) ∧
      ((ba_set c ba idx v).data k).testBit p = (ba.data k).testBit p) := by
  by_cases hb : ∃ q, q < ba.element_size_bits ∧
      unitOf c (start_bit idx ba.element_size_bits + q) = k ∧
      bitOf c (start_bit idx ba.element_size_bits + q) = p
  · obtain ⟨q, hq, hqk, hqp⟩ := hb
    left
    refine ⟨q, hq, hqk, hqp, ?_⟩
    have h := ba_set_written c hv ba idx v hE hidx q hq
    rw [hqk, hqp] at h
    exact h
  · right
    have hout : ∀ r, r < ba.element_size_bits →
        ¬ (unitOf c (start_bit idx ba.element_size_bits + r) = k ∧
           bitOf c (start_bit idx ba.element_size_bits + r) = p) :=
      fun r hr hloc => hb ⟨r, hr, hloc.1, hloc.2⟩
    exact ⟨hout, ba_set_frame c hv ba idx v hE k p hp hout⟩

/-- A unit after a write is untouched or a value of the unit type. -/
theorem ba_set_unit_cases (c : Config) (hv : c.Valid) (ba : ba_array_t) (idx v : Nat)
    (hidx : idx < ba.size) (k : Nat) :
    ((∀ r, r < ba.element_size_bits →
        unitOf c (start_bit idx ba.element_size_bits + r) ≠ k) ∧
      (ba_set c ba idx v).data k = ba.data k) ∨
    ((∃ r, r < ba.element_size_bits ∧
        unitOf c (start_bit idx ba.element_size_bits + r) = k) ∧
      (ba_set c ba idx v).data k < 2 ^ c.BA_UNIT_SIZE_BITS) := by
  by_cases ht : ∃ r, r < ba.element_size_bits ∧
      unitOf c (start_bit idx ba.element_size_bits + r) = k
  · right
    obtain ⟨r, hr, hk⟩ := ht
    have h := ba_set_touched_lt c hv ba idx v hidx r hr
    rw [hk] at h
    exact ⟨⟨r, hr, hk⟩, h⟩
  · left
    have hout : ∀ r, r < ba.element_size_bits →
        unitOf c (start_bit idx ba.element_size_bits + r) ≠ k :=
      fun r hr hk => ht ⟨r, hr, hk⟩
    exact ⟨hout, ba_set_unit_frame c hv ba idx v k hout⟩

/-- Inside the addressable range, writes to different indices commute. -/
theorem ba_set_comm (c : Config) (hv : c.Valid) (ba : ba_array_t) (i j a b : Nat)
    (hE : ba.element_size_bits ≤ c.BA_ELEMENT_TYPE_BITS) (hA : Addressable c ba)
    (hi : i < ba.size) (hj : j < ba.size) (hij : i ≠ j) :
    (ba_set c (ba_set c ba i a) j b).data = (ba_set c (ba_set c ba j b) i a).data := by
  have hU := hv.unit_pos
  have hEi : (ba_set c ba i a).element_size_bits = ba.element_size_bits :=
    ba_set_element_size_bits c ba i a
  have hEj : (ba_set c ba j b).element_size_bits = ba.element_size_bits :=
    ba_set_element_size_bits c ba j b
  have hsi : (ba_set c ba i a).size = ba.size := ba_set_size c ba i a
  have hsj : (ba_set c ba j b).size = ba.size := ba_set_size c ba j b
  have hE1 : (ba_set c ba i a).element_size_bits ≤ c.BA_ELEMENT_TYPE_BITS := by
    rw [hEi]; exact hE
  have hE2 : (ba_set c ba j b).element_size_bits ≤ c.BA_ELEMENT_TYPE_BITS := by
    rw [hEj]; exact hE
  have hj1 : j < (ba_set c ba i a).size := by rw [hsi]; exact hj
  have hi2 : i < (ba_set c ba j b).size := by rw [hsj]; exact hi
  funext k
  have uX := ba_set_unit_cases c hv (ba_set c ba i a) j b hj1 k
  have uXi := ba_set_unit_cases c hv ba i a hi k
  have uY := ba_set_unit_cases c hv (ba_set c ba j b) i a hi2 k
  have uYj := ba_set_unit_cases c hv ba j b hj k
  rw [hEi] at uX
  rw [hEj] at uY
  -- both sides are values of the unit type, or both are the old unit
  have hboth : ((ba_set c (ba_set c ba i a) j b).data k = ba.data k ∧
        (ba_set c (ba_set c ba j b) i a).data k = ba.data k) ∨
      ((ba_set c (ba_set c ba i a) j b).data k < 2 ^ c.BA_UNIT_SIZE_BITS ∧
        (ba_set c (ba_set c ba j b) i a).data k < 2 ^ c.BA_UNIT_SIZE_BITS) := by
    rcases uX with ⟨hnj, eX⟩ | ⟨htj, lX⟩
    · rcases uXi with ⟨hni, eXi⟩ | ⟨hti, lXi⟩
      · left
        refine ⟨by rw [eX, eXi], ?_⟩
        rcases uY with ⟨-, eY⟩ | ⟨⟨r, hr, hk⟩, -⟩
        · rcases uYj with ⟨-, eYj⟩ | ⟨⟨q, hq, hk2⟩, -⟩
          · rw [eY, eYj]
          · exact absurd hk2 (hnj q hq)
        · exact absurd hk (hni r hr)
      · right
        refine ⟨by rw [eX]; exact lXi, ?_⟩
        rcases uY with ⟨hni, -⟩ | ⟨-, lY⟩
        · obtain ⟨r, hr, hk⟩ := hti
          exact absurd hk (hni r hr)
        · exact lY
    · right
      refine ⟨lX, ?_⟩
      rcases uY with ⟨-, eY⟩ | ⟨-, lY⟩
      · rcases uYj with ⟨hnj, -⟩ | ⟨-, lYj⟩
        · obtain ⟨r, hr, hk⟩ := htj
          exact absurd hk (hnj r hr)
        · rw [eY]; exact lYj
      · exact lY
  rcases hboth with ⟨e1, e2⟩ | ⟨l1, l2⟩
  · rw [e1, e2]
  · apply eq_of_testBit_below _ _ _ l1 l2
    intro p hp
    have bX := ba_set_bit_cases c hv (ba_set c ba i a) j b hE1 hj1 k p hp
    have bXi := ba_set_bit_cases c hv ba i a hE hi k p hp
    have bY := ba_set_bit_cases c hv (ba_set c ba j b) i a hE2 hi2 k p hp
    have bYj := ba_set_bit_cases c hv ba j b hE hj k p hp
    rw [hEi] at bX
    rw [hEj] at bY
    rcases bX with ⟨q, hq, hqk, hqp, eX⟩ | ⟨hnj, eX⟩
    · -- the bit belongs to element j
      rcases bY with ⟨r, hr, hrk, hrp, -⟩ | ⟨-, eY⟩
      · exact absurd ⟨hrk.trans hqk.symm, hrp.trans hqp.symm⟩
          (locations_disjoint c hU ba hA i j hi hj hij r q hr hq)
      · rcases bXi with ⟨r2, hr2, hr2k, hr2p, -⟩ | ⟨-, eXi⟩
        · exact absurd ⟨hr2k.trans hqk.symm, hr2p.trans hqp.symm⟩
            (locations_disjoint c hU ba hA i j hi hj hij r2 q hr2 hq)
        · rcases bYj with ⟨q2, hq2, hq2k, hq2p, eYj⟩ | ⟨hnj2, -⟩
          · have hqq : q2 = q := by
              have hsj := start_bit_eq j ba.element_size_bits ba.size hj hA.1
              have hx := element_bit_lt j ba.element_size_bits ba.size q2 hj hq2
              have hy := element_bit_lt j ba.element_size_bits ba.size q hj hq
              have h1 := hq2k.trans hqk.symm
              have h2 := hq2p.trans hqp.symm
              rw [hsj, unitOf_eq c _ (lt_of_lt_of_le hx hA.2),
                unitOf_eq c _ (lt_of_lt_of_le hy hA.2)] at h1
              rw [hsj] at h2
              have := location_inj c.BA_UNIT_SIZE_BITS _ _ hU h1 h2
              omega
            rw [eX, eY, eYj, eXi, hqq]
          · exact absurd ⟨hqk, hqp⟩ (hnj2 q hq)
    · rcases bY with ⟨r, hr, hrk, hrp, eY⟩ | ⟨hni, eY⟩
      · -- the bit belongs to element i
        rcases bYj with ⟨q2, hq2, hq2k, hq2p, -⟩ | ⟨-, eYj⟩
        · exact absurd ⟨hq2k, hq2p⟩ (hnj q2 hq2)
        · rcases bXi with ⟨r2, hr2, hr2k, hr2p, eXi⟩ | ⟨hni2, -⟩
          · have hrr : r2 = r := by
              have hsi2 := start_bit_eq i ba.element_size_bits ba.size hi hA.1
              have hx := element_bit_lt i ba.element_size_bits ba.size r2 hi hr2
              have hy := element_bit_lt i ba.element_size_bits ba.size r hi hr
              have h1 := hr2k.trans hrk.symm
              have h2 := hr2p.trans hrp.symm
              rw [hsi2, unitOf_eq c _ (lt_of_lt_of_le hx hA.2),
                unitOf_eq c _ (lt_of_lt_of_le hy hA.2)] at h1
              rw [hsi2] at h2
              have := location_inj c.BA_UNIT_SIZE_BITS _ _ hU h1 h2
              omega
            rw [eX, eXi, eY, eYj, hrr]
          · exact absurd ⟨hrk, hrp⟩ (hni2 r hr)
      · -- the bit belongs to neither element
        rcases bXi with ⟨r2, hr2, hr2k, hr2p, -⟩ | ⟨-, eXi⟩
        · exact absurd ⟨hr2k, hr2p⟩ (hni r2 hr2)
        · rcases bYj with ⟨q2, hq2, hq2k, hq2p, -⟩ | ⟨-, eYj⟩
          · exact absurd ⟨hq2k, hq2p⟩ (hnj q2 hq2)
          · rw [eX, eXi, eY, eYj]

/-! ## Termination of the loops -/

theorem compute_next_zero_iff (c : Config) (d : bitdesc_t) :
    (compute_next c d).1 = 0 ↔ d.left_bits = 0 := by
  constructor
  · intro h
    by_contra hne
    have := (compute_next_consumes c d hne).1
    omega
  · exact compute_next_done c d

theorem calls_fuel_any (c : Config) :
    ∀ (fuel : Nat) (bd : bitdesc_t), bd.left_bits ≤ fuel → ∀ extra : Nat,
      calls c (fuel + extra) bd = calls c fuel bd := by
  intro fuel
  induction fuel with
  | zero =>
    intro bd hf extra
    have hL : bd.left_bits = 0 := by omega
    rw [calls_nil_of_done c _ bd hL, calls_nil_of_done c _ bd hL]
  | succ fuel ih =>
    intro bd hf extra
    by_cases hL : bd.left_bits = 0
    · rw [calls_nil_of_done c _ bd hL, calls_nil_of_done c _ bd hL]
    · obtain ⟨h1, -, hlt⟩ := compute_next_consumes c bd hL
      have hne : ¬ ((compute_next c bd).1 = 0) := by omega
      have e : fuel + 1 + extra = (fuel + extra) + 1 := by omega
      rw [e]
      simp only [calls, if_neg hne]
      rw [ih _ (by omega) extra]

/-- From any descriptor, `left_bits` iterations exhaust the loop of `ba_set`:
more iterations give the same storage. -/
theorem ba_set_loop_fuel_any (c : Config) (v : Nat) (bd : bitdesc_t) (st : Nat → Nat)
    (extra : Nat) :
    ba_set_loop c v (bd.left_bits + extra) bd st = ba_set_loop c v bd.left_bits bd st := by
  rw [ba_set_loop_eq_foldl, ba_set_loop_eq_foldl, calls_fuel_any c _ bd (Nat.le_refl _) extra]

/-- From any descriptor, `left_bits` iterations exhaust the loop of `ba_get`:
more iterations give the same value. -/
theorem ba_get_loop_fuel_any (c : Config) (st : Nat → Nat) (bd : bitdesc_t) (data extra : Nat) :
    ba_get_loop c st (bd.left_bits + extra) bd data = ba_get_loop c st bd.left_bits bd data := by
  rw [ba_get_loop_eq_foldl, ba_get_loop_eq_foldl, calls_fuel_any c _ bd (Nat.le_refl _) extra]

/-- After the calls of the trace nothing is left: the call that ends the loop
is made with `left_bits = 0` and returns 0. -/
theorem calls_exhaust (c : Config) :
    ∀ (fuel : Nat) (bd : bitdesc_t), bd.left_bits ≤ fuel →
      ((calls c fuel bd).foldl (fun d _ => (compute_next c d).2) bd).left_bits = 0 := by
  intro fuel
  induction fuel with
  | zero => intro bd hf; simp only [calls, List.foldl_nil]; omega
  | succ fuel ih =>
    intro bd hf
    by_cases hL : bd.left_bits = 0
    · rw [calls_nil_of_done c _ bd hL]; exact hL
    · obtain ⟨h1, -, hlt⟩ := compute_next_consumes c bd hL
      have hne : ¬ ((compute_next c bd).1 = 0) := by omega
      simp only [calls, if_neg hne, List.foldl_cons]
      exact ih _ (by omega)

/-! ## The units of one operation -/

theorem ba_calls_eq (c : Config) (ba : ba_array_t) (idx : Nat) (h : idx < ba.size) :
    ba_calls c ba idx
      = calls c ba.element_size_bits (bitdesc_init idx ba.element_size_bits) := by
  simp only [ba_calls, if_neg (Nat.not_le.2 h), bitdesc_init]

theorem tracks_bitdesc_init (c : Config) (idx E : Nat) :
    Tracks c E (bitdesc_init idx E) (start_bit idx E) :=
  tracks_init c idx E

/-- Every unit of an operation holds a bit of the element, the unit index
being counted in the index type. -/
theorem ba_units_mem (c : Config) (hv : c.Valid) (ba : ba_array_t) (idx : Nat)
    (k : Nat) (hk : k ∈ ba_units c ba idx) :
    ∃ r, r < ba.element_size_bits ∧
      k = unitOf c (start_bit idx ba.element_size_bits + r) := by
  have hU := hv.unit_pos
  simp only [ba_units, ba_calls] at hk
  split_ifs at hk with hi
  · simp at hk
  · rw [List.mem_map] at hk
    obtain ⟨d, hd, hdk⟩ := hk
    obtain ⟨g2, ht, hpos, hge, hsum⟩ := calls_tracks c hU ba.element_size_bits
      ba.element_size_bits _ _ (tracks_init c idx ba.element_size_bits) (Nat.le_refl _) d hd
    have hidx := (compute_next_step c hU ba.element_size_bits d g2 ht hpos).2.1
    simp only at hsum
    refine ⟨g2 - start_bit idx ba.element_size_bits, by omega, ?_⟩
    rw [← hdk, call_unit, hidx]
    congr 1
    omega

/-- One operation touches at most `ceil(E / U) + 1` units. -/
theorem ba_units_length (c : Config) (hv : c.Valid) (ba : ba_array_t) (idx : Nat) :
    (ba_units c ba idx).length
      ≤ (ba.element_size_bits + c.BA_UNIT_SIZE_BITS - 1) / c.BA_UNIT_SIZE_BITS + 1 := by
  have hU := hv.unit_pos
  simp only [ba_units, ba_calls, List.length_map]
  split_ifs with hi
  · simp
  · have h := calls_length c hU ba.element_size_bits ba.element_size_bits _ _
      (tracks_init c idx ba.element_size_bits) (Nat.le_refl _)
    simp only at h
    have hgm := Nat.mod_lt (start_bit idx ba.element_size_bits) hU
    have h2 : (ba.element_size_bits + start_bit idx ba.element_size_bits % c.BA_UNIT_SIZE_BITS
          + c.BA_UNIT_SIZE_BITS - 1) / c.BA_UNIT_SIZE_BITS
        ≤ (ba.element_size_bits + c.BA_UNIT_SIZE_BITS - 1 + c.BA_UNIT_SIZE_BITS)
          / c.BA_UNIT_SIZE_BITS := Nat.div_le_div_right (by omega)
    rw [Nat.add_div_right _ hU] at h2
    omega

/-- The units of one operation are consecutive, counted in the index type. -/
theorem ba_units_consecutive (c : Config) (hv : c.Valid) (ba : ba_array_t) (idx : Nat) :
    ba_units c ba idx
      = (List.range (ba_units c ba idx).length).map
          (fun i => (start_bit idx ba.element_size_bits / c.BA_UNIT_SIZE_BITS + i)
            % 2 ^ c.BA_ARRAY_SIZE_BITS) := by
  have hU := hv.unit_pos
  simp only [ba_units, ba_calls, List.length_map]
  split_ifs with hi
  · simp
  · exact calls_units c hU ba.element_size_bits ba.element_size_bits _ _
      (tracks_init c idx ba.element_size_bits) (Nat.le_refl _)

theorem ba_units_length_tight (c : Config) (hv : c.Valid) (ba : ba_array_t) (idx : Nat) :
    (ba_units c ba idx).length
      ≤ (ba.element_size_bits + start_bit idx ba.element_size_bits % c.BA_UNIT_SIZE_BITS
          + c.BA_UNIT_SIZE_BITS - 1) / c.BA_UNIT_SIZE_BITS := by
  have hU := hv.unit_pos
  simp only [ba_units, ba_calls, List.length_map]
  split_ifs with hi
  · simp
  · exact calls_length c hU ba.element_size_bits ba.element_size_bits _ _
      (tracks_init c idx ba.element_size_bits) (Nat.le_refl _)

theorem unit_count_bound (g L U M : Nat) (hU : 0 < U) (h : g + L ≤ U * M) :
    g / U + (L + g % U + U - 1) / U ≤ M := by
  have h1 := Nat.div_add_mod g U
  have e : g / U + (L + g % U + U - 1) / U = (g + L + U - 1) / U := by
    have : g + L + U - 1 = (L + g % U + U - 1) + U * (g / U) := by omega
    rw [this, Nat.add_mul_div_left _ _ hU]; omega
  rw [e]
  have h2 : (g + L + U - 1) / U < M + 1 := by
    rw [Nat.div_lt_iff_lt_mul hU, Nat.add_mul, Nat.one_mul, Nat.mul_comm M U]
    omega
  omega

/-- Inside the addressable range the units of one operation are consecutive
and increasing, starting at unit `idx * E / U`. -/
theorem ba_units_increasing (c : Config) (hv : c.Valid) (ba : ba_array_t) (idx : Nat)
    (hA : Addressable c ba) (hidx : idx < ba.size) :
    ba_units c ba idx
      = List.range' (idx * ba.element_size_bits / c.BA_UNIT_SIZE_BITS)
          (ba_units c ba idx).length := by
  have hU := hv.unit_pos
  have hcons := ba_units_consecutive c hv ba idx
  have hlen := ba_units_length_tight c hv ba idx
  have hs := start_bit_eq idx ba.element_size_bits ba.size hidx hA.1
  rw [hs] at hcons hlen
  have hx : idx * ba.element_size_bits + ba.element_size_bits
      ≤ c.BA_UNIT_SIZE_BITS * 2 ^ c.BA_ARRAY_SIZE_BITS := by
    have h1 : (idx + 1) * ba.element_size_bits ≤ ba.size * ba.element_size_bits :=
      Nat.mul_le_mul_right _ hidx
    rw [Nat.add_mul, Nat.one_mul] at h1
    exact le_trans h1 hA.2
  have hb := unit_count_bound (idx * ba.element_size_bits) ba.element_size_bits
    c.BA_UNIT_SIZE_BITS (2 ^ c.BA_ARRAY_SIZE_BITS) hU hx
  rw [List.range'_eq_map_range]
  refine hcons.trans ?_
  apply List.map_congr_left
  intro i hi
  rw [List.mem_range] at hi
  exact Nat.mod_eq_of_lt (by omega)

/-! ## The storage sized by the macro -/

/-- When the bit count fits `uint32_t`, every unit of an operation starts
inside the bytes given by `BA_STORAGE_SIZE_BYTES`. -/
theorem ba_units_sized (c : Config) (hv : c.Valid) (ba : ba_array_t) (idx : Nat)
    (h32 : ba.size * ba.element_size_bits + 7 < 2 ^ 32) (k : Nat)
    (hk : k ∈ ba_units c ba idx) :
    k * c.BA_UNIT_SIZE_BITS < 8 * BA_STORAGE_SIZE_BYTES ba.size ba.element_size_bits := by
  by_cases hidx : idx < ba.size
  · obtain ⟨r, hr, hkr⟩ := ba_units_mem c hv ba idx k hk
    have hs := start_bit_eq idx ba.element_size_bits ba.size hidx (by omega)
    have hx := element_bit_lt idx ba.element_size_bits ba.size r hidx hr
    rw [hs] at hkr
    have h1 : k ≤ (idx * ba.element_size_bits + r) / c.BA_UNIT_SIZE_BITS := by
      rw [hkr]; exact Nat.mod_le _ _
    have h2 : k * c.BA_UNIT_SIZE_BITS
        ≤ (idx * ba.element_size_bits + r) / c.BA_UNIT_SIZE_BITS * c.BA_UNIT_SIZE_BITS :=
      Nat.mul_le_mul_right _ h1
    have h3 := Nat.div_mul_le_self (idx * ba.element_size_bits + r) c.BA_UNIT_SIZE_BITS
    rw [BA_STORAGE_SIZE_BYTES_exact _ _ h32]
    omega
  · simp only [ba_units, ba_calls, if_pos (Nat.le_of_not_lt hidx), List.map_nil,
      List.not_mem_nil] at hk

/-! ## The first slice -/

theorem start_bit_exact (idx E : Nat) (hE : 0 < E) (h : idx * E < 2 ^ 32) :
    start_bit idx E = idx * E := by
  have h2 : idx ≤ idx * E := Nat.le_mul_of_pos_right idx hE
  simp only [start_bit]
  rw [Nat.mod_eq_of_lt (show idx < 2 ^ 32 by omega), Nat.mod_eq_of_lt h]

/-- When the bit offset fits `uint32_t` and the unit index fits the index
type, the first call of `compute_next` addresses the exact position. -/
theorem first_call_exact (c : Config) (hv : c.Valid) (idx E : Nat) (hE : 0 < E)
    (h32 : idx * E < 2 ^ 32)
    (hS : idx * E / c.BA_UNIT_SIZE_BITS < 2 ^ c.BA_ARRAY_SIZE_BITS) :
    (compute_next c (bitdesc_init idx E)).1 = 1 ∧
    (cursor c (bitdesc_init idx E)).idx = idx * E / c.BA_UNIT_SIZE_BITS ∧
    (cursor c (bitdesc_init idx E)).bit_pos
      = c.BA_UNIT_SIZE_BITS - 1 - (idx * E) % c.BA_UNIT_SIZE_BITS ∧
    call_unit c (bitdesc_init idx E) = idx * E / c.BA_UNIT_SIZE_BITS ∧
    (compute_next c (bitdesc_init idx E)).2.st_shift + crt_bits c (bitdesc_init idx E)
      = c.BA_UNIT_SIZE_BITS - (idx * E) % c.BA_UNIT_SIZE_BITS := by
  have hU := hv.unit_pos
  have ht := tracks_bitdesc_init c idx E
  rw [start_bit_exact idx E hE h32] at ht
  have hpos : 0 < (bitdesc_init idx E).left_bits := hE
  obtain ⟨h1, hidx, -, -, hshift, -⟩ := compute_next_step c hU E _ _ ht hpos
  obtain ⟨hc1, hc2, hc3⟩ := cursor_step c hU E _ _ ht hpos
  have hu : unitOf c (idx * E) = idx * E / c.BA_UNIT_SIZE_BITS := by
    simp only [unitOf]; exact Nat.mod_eq_of_lt hS
  have hn := sliceBits_le c (idx * E) (bitdesc_init idx E).left_bits
  refine ⟨h1, by rw [hc1, hu], hc2, by rw [call_unit, hidx, hu], ?_⟩
  rw [hshift, hc3]
  omega

/-! ## The claims on storage size, slices and algebra of writes -/

/-- C11 at the failing input: in the default build (32-bit units) one element
of 3 bits is sized at 1 byte by `BA_STORAGE_SIZE_BYTES`, but `ba_set` and
`ba_get` access unit 0, which occupies bytes 0..3: the unit does not lie inside
the byte the macro asked for. -/
theorem sized_storage_cuts_unit :
    defaultConfig.Valid ∧ 0 < tinyArray.size ∧
    BA_STORAGE_SIZE_BYTES tinyArray.size tinyArray.element_size_bits = 1 ∧
    0 ∈ ba_units defaultConfig tinyArray 0 ∧
    ¬ ((0 + 1) * defaultConfig.BA_UNIT_SIZE_BITS / 8
        ≤ BA_STORAGE_SIZE_BYTES tinyArray.size tinyArray.element_size_bits) := by
  decide

/-- C12 at the failing input: in the build with an 8-bit index, 8-bit units and
16-bit elements, element 170 of an array of 12-bit elements starts in unit 255;
the operation accesses unit 255 and then unit 0, not unit 256. -/
theorem ba_units_wrap_in_narrow_index :
    narrowConfig.Valid ∧ 170 < narrowArray12.size ∧
    narrowArray12.size * narrowArray12.element_size_bits < 2 ^ 32 ∧
    170 * narrowArray12.element_size_bits / narrowConfig.BA_UNIT_SIZE_BITS = 255 ∧
    ba_units narrowConfig narrowArray12 170 = [255, 0] := by
  decide

/-- C13 as stated fails: in the default build the bit offset of index `2 ^ 31`
with 2-bit elements is `2 ^ 32`, which wraps to 0 in `uint32_t`; the first
slice targets unit 0, not unit `2 ^ 32 / 32 = 2 ^ 27`. -/
theorem first_call_wraps_uint32 :
    defaultConfig.Valid ∧ 2 ^ 31 < hugeArray.size ∧
    (cursor defaultConfig (bitdesc_init (2 ^ 31) hugeArray.element_size_bits)).idx = 0 ∧
    call_unit defaultConfig (bitdesc_init (2 ^ 31) hugeArray.element_size_bits) = 0 ∧
    2 ^ 31 * hugeArray.element_size_bits / defaultConfig.BA_UNIT_SIZE_BITS = 2 ^ 27 := by
  decide

/-- C13 (starting address, amended): for every build, every index and every
element width `E ≥ 1` such that `idx * E` fits `uint32_t` and the unit index
`idx * E / U` fits the index type, the first call of `compute_next` returns 1
and targets unit `idx * E / U` at bit position `U - 1 - (idx * E) mod U`, the
top bit of the first slice. -/
theorem first_slice_exact_when_fits (c : Config) (hv : c.Valid) (idx E : Nat) (hE : 0 < E)
    (h32 : idx * E < 2 ^ 32)
    (hS : idx * E / c.BA_UNIT_SIZE_BITS < 2 ^ c.BA_ARRAY_SIZE_BITS) :
    (compute_next c (bitdesc_init idx E)).1 = 1 ∧
    (cursor c (bitdesc_init idx E)).idx = idx * E / c.BA_UNIT_SIZE_BITS ∧
    (cursor c (bitdesc_init idx E)).bit_pos
      = c.BA_UNIT_SIZE_BITS - 1 - (idx * E) % c.BA_UNIT_SIZE_BITS ∧
    call_unit c (bitdesc_init idx E) = idx * E / c.BA_UNIT_SIZE_BITS ∧
    (compute_next c (bitdesc_init idx E)).2.st_shift + crt_bits c (bitdesc_init idx E)
      = c.BA_UNIT_SIZE_BITS - (idx * E) % c.BA_UNIT_SIZE_BITS :=
  first_call_exact c hv idx E hE h32 hS

theorem first_slice_exact_when_fits_witness :
    (byteConfig.Valid ∧ 0 < 11 ∧ 3 * 11 < 2 ^ 32 ∧
      3 * 11 / byteConfig.BA_UNIT_SIZE_BITS < 2 ^ byteConfig.BA_ARRAY_SIZE_BITS) ∧
    ((compute_next byteConfig (bitdesc_init 3 11)).1 = 1 ∧
      (cursor byteConfig (bitdesc_init 3 11)).idx = 3 * 11 / byteConfig.BA_UNIT_SIZE_BITS ∧
      (cursor byteConfig (bitdesc_init 3 11)).bit_pos
        = byteConfig.BA_UNIT_SIZE_BITS - 1 - (3 * 11) % byteConfig.BA_UNIT_SIZE_BITS ∧
      call_unit byteConfig (bitdesc_init 3 11) = 3 * 11 / byteConfig.BA_UNIT_SIZE_BITS ∧
      (compute_next byteConfig (bitdesc_init 3 11)).2.st_shift
          + crt_bits byteConfig (bitdesc_init 3 11)
        = byteConfig.BA_UNIT_SIZE_BITS - (3 * 11) % byteConfig.BA_UNIT_SIZE_BITS) :=
  ⟨⟨by decide, by decide, by decide, by decide⟩,
    first_slice_exact_when_fits byteConfig (by decide) 3 11 (by decide) (by decide)
      (by decide)⟩

/-- C14 (termination): for every build, every descriptor, every value and every
storage, `compute_next` returns 0 exactly when `left_bits` is 0; a call with
bits left returns 1, consumes `crt_bits` with `1 ≤ crt_bits ≤ left_bits` and
strictly decreases `left_bits`; hence `left_bits` iterations exhaust the loops
of `ba_set` and `ba_get` (more iterations change nothing, and the call that
ends the loop finds `left_bits = 0`); with element width 0 no unit is accessed,
the storage is unchanged and the value read is 0. -/
theorem loops_terminate (c : Config) (d : bitdesc_t) (v : Nat) (st : Nat → Nat)
    (data extra size idx : Nat) :
    ((compute_next c d).1 = 0 ↔ d.left_bits = 0) ∧
    (d.left_bits ≠ 0 →
      (compute_next c d).1 = 1 ∧ 1 ≤ crt_bits c d ∧ crt_bits c d ≤ d.left_bits ∧
      (compute_next c d).2.left_bits = d.left_bits - crt_bits c d ∧
      (compute_next c d).2.left_bits < d.left_bits) ∧
    ba_set_loop c v (d.left_bits + extra) d st = ba_set_loop c v d.left_bits d st ∧
    ba_get_loop c st (d.left_bits + extra) d data = ba_get_loop c st d.left_bits d data ∧
    ((calls c d.left_bits d).foldl (fun e _ => (compute_next c e).2) d).left_bits = 0 ∧
    ba_units c (ba_init st size 0) idx = [] ∧
    (ba_set c (ba_init st size 0) idx v).data = st ∧
    ba_get c (ba_init st size 0) idx = 0 := by
  refine ⟨compute_next_zero_iff c d, ?_, ba_set_loop_fuel_any c v d st extra,
    ba_get_loop_fuel_any c st d data extra, calls_exhaust c _ d (Nat.le_refl _), ?_, ?_, ?_⟩
  · intro h
    have h1 := compute_next_consumes c d h
    have h2 := crt_bits_bounds c d h
    exact ⟨h1.1, h2.1, h2.2, h1.2.1, h1.2.2⟩
  · simp only [ba_units, ba_calls, ba_init]
    split_ifs <;> rfl
  · simp only [ba_set, ba_init]
    split_ifs <;> rfl
  · simp only [ba_get, ba_init]
    split_ifs <;> rfl

theorem loops_terminate_witness :
    (bitdesc_init 3 11).left_bits ≠ 0 ∧
    (compute_next byteConfig (bitdesc_init 3 11)).1 = 1 ∧
    (compute_next byteConfig (bitdesc_init 3 11)).2.left_bits < (bitdesc_init 3 11).left_bits ∧
    ba_get_loop byteConfig byteArray.data ((bitdesc_init 3 11).left_bits + 5)
        (bitdesc_init 3 11) 0
      = ba_get_loop byteConfig byteArray.data (bitdesc_init 3 11).left_bits
        (bitdesc_init 3 11) 0 :=
  ⟨by decide,
    ((loops_terminate byteConfig (bitdesc_init 3 11) 0 byteArray.data 0 5 20 3).2.1
      (by decide)).1,
    ((loops_terminate byteConfig (bitdesc_init 3 11) 0 byteArray.data 0 5 20 3).2.1
      (by decide)).2.2.2.2,
    (loops_terminate byteConfig (bitdesc_init 3 11) 0 byteArray.data 0 5 20 3).2.2.2.1⟩

/-- C15 at the failing input: in the build with an 8-bit index, 8-bit units and
16-bit elements, the first slice of element 170 of 12-bit elements is in unit
255 and is followed by a second slice; that slice is in unit 0, not in unit
`255 + 1`. -/
theorem advance_wraps_in_narrow_index :
    narrowConfig.Valid ∧ 170 < narrowArray12.size ∧
    (compute_next narrowConfig (bitdesc_init 170 12)).2.left_bits ≠ 0 ∧
    (compute_next narrowConfig (bitdesc_init 170 12)).2.st_shift = 0 ∧
    call_unit narrowConfig (bitdesc_init 170 12) = 255 ∧
    call_unit narrowConfig (compute_next narrowConfig (bitdesc_init 170 12)).2 = 0 ∧
    call_unit narrowConfig (compute_next narrowConfig (bitdesc_init 170 12)).2
      ≠ call_unit narrowConfig (bitdesc_init 170 12) + 1 := by
  decide

/-- C16 (slices partition the element): for every build, index and element
width, every call of `compute_next` in an operation has
`crt_bits = min(bit_pos + 1, left_bits)` with `crt_bits ≥ 1`, sets
`st_shift = bit_pos + 1 - crt_bits` with `st_shift + crt_bits ≤ U`, and the
widths `crt_bits` of the successive calls add up to exactly `E`. -/
theorem slices_partition_element (c : Config) (hv : c.Valid) (idx E : Nat) :
    (∀ d, d ∈ calls c E (bitdesc_init idx E) →
      crt_bits c d = min ((cursor c d).bit_pos + 1) d.left_bits ∧
      1 ≤ crt_bits c d ∧
      (compute_next c d).2.st_shift = (cursor c d).bit_pos + 1 - crt_bits c d ∧
      (compute_next c d).2.st_shift + crt_bits c d ≤ c.BA_UNIT_SIZE_BITS) ∧
    ((calls c E (bitdesc_init idx E)).map (crt_bits c)).sum = E := by
  have hU := hv.unit_pos
  constructor
  · intro d hd
    obtain ⟨g2, ht, hpos, -, -⟩ := calls_tracks c hU E E _ _ (tracks_bitdesc_init c idx E)
      (Nat.le_refl _) d hd
    have hne : d.left_bits ≠ 0 := by omega
    have hl := (cursor_left_bits c d).1
    obtain ⟨-, hbp, hcrt⟩ := cursor_step c hU E d g2 ht hpos
    have hshift := (compute_next_step c hU E d g2 ht hpos).2.2.2.2.1
    have hn := sliceBits_le c g2 d.left_bits
    have hgm := Nat.mod_lt g2 hU
    refine ⟨?_, (crt_bits_bounds c d hne).1, ?_, ?_⟩
    · simp only [crt_bits, BA_MIN, hl]
      split_ifs <;> omega
    · rw [hshift, hbp, hcrt]; omega
    · rw [hshift, hcrt]; omega
  · exact calls_sum c hU E E _ _ (tracks_bitdesc_init c idx E) (Nat.le_refl _)

theorem slices_partition_element_witness :
    byteConfig.Valid ∧
    ((calls byteConfig 11 (bitdesc_init 3 11)).map (crt_bits byteConfig)).sum = 11 :=
  ⟨by decide, (slices_partition_element byteConfig (by decide) 3 11).2⟩

/-- C17 (get-then-set is the identity): for every build, every array with
element width at most the element-type width, every storage of unit-type
values and every `idx < size`, `ba_set(ba, idx, ba_get(ba, idx))` leaves every
storage unit unchanged. -/
theorem ba_set_ba_get_identity (c : Config) (hv : c.Valid) (ba : ba_array_t) (idx : Nat)
    (hE : ba.element_size_bits ≤ c.BA_ELEMENT_TYPE_BITS) (hw : WfStorage c ba.data)
    (hidx : idx < ba.size) :
    (ba_set c ba idx (ba_get c ba idx)).data = ba.data ∧
    ∀ k, (ba_set c ba idx (ba_get c ba idx)).data k = ba.data k := by
  have h := ba_set_get_same c hv ba idx hE hw hidx
  exact ⟨h, fun k => by rw [h]⟩

theorem ba_set_ba_get_identity_witness :
    (byteConfig.Valid ∧ patternArray.element_size_bits ≤ byteConfig.BA_ELEMENT_TYPE_BITS ∧
      WfStorage byteConfig patternArray.data ∧ 3 < patternArray.size) ∧
    ((ba_set byteConfig patternArray 3 (ba_get byteConfig patternArray 3)).data
        = patternArray.data ∧
      ∀ k, (ba_set byteConfig patternArray 3 (ba_get byteConfig patternArray 3)).data k
        = patternArray.data k) :=
  ⟨⟨by decide, by decide, fun _ => (by decide : (165 : Nat) < 2 ^ 8), by decide⟩,
    ba_set_ba_get_identity byteConfig (by decide) patternArray 3 (by decide)
      (fun _ => (by decide : (165 : Nat) < 2 ^ 8)) (by decide)⟩

/-- C18 (last write wins): for every build, every array with element width at
most the element-type width, every `idx < size` and all values `a`, `b`, the
storage after `ba_set(idx, a); ba_set(idx, b)` is the storage after
`ba_set(idx, b)` alone; in particular writing `a` twice equals writing it
once. -/
theorem ba_set_last_write_wins (c : Config) (hv : c.Valid) (ba : ba_array_t) (idx a b : Nat)
    (hE : ba.element_size_bits ≤ c.BA_ELEMENT_TYPE_BITS) (hidx : idx < ba.size) :
    (ba_set c (ba_set c ba idx a) idx b).data = (ba_set c ba idx b).data ∧
    (ba_set c (ba_set c ba idx a) idx a).data = (ba_set c ba idx a).data :=
  ⟨ba_set_set_same c hv ba idx a b hE hidx, ba_set_set_same c hv ba idx a a hE hidx⟩

theorem ba_set_last_write_wins_witness :
    (byteConfig.Valid ∧ byteArray.element_size_bits ≤ byteConfig.BA_ELEMENT_TYPE_BITS ∧
      3 < byteArray.size) ∧
    ((ba_set byteConfig (ba_set byteConfig byteArray 3 1234) 3 77).data
        = (ba_set byteConfig byteArray 3 77).data ∧
      (ba_set byteConfig (ba_set byteConfig byteArray 3 1234) 3 1234).data
        = (ba_set byteConfig byteArray 3 1234).data) :=
  ⟨⟨by decide, by decide, by decide⟩,
    ba_set_last_write_wins byteConfig (by decide) byteArray 3 1234 77 (by decide)
      (by decide)⟩

/-- C19 at the failing input: in the build with an 8-bit index, 8-bit units and
16-bit elements, elements 150 and 22 of an array of 16-bit elements share units
44 and 45 after truncation; `ba_set(150, 1); ba_set(22, 2)` leaves 2 in unit 45
and `ba_set(22, 2); ba_set(150, 1)` leaves 1. -/
theorem ba_set_order_matters_in_narrow_index :
    narrowConfig.Valid ∧ narrowArray.size * narrowArray.element_size_bits < 2 ^ 32 ∧
    (150 : Nat) ≠ 22 ∧ 150 < narrowArray.size ∧ 22 < narrowArray.size ∧
    (ba_set narrowConfig (ba_set narrowConfig narrowArray 150 1) 22 2).data 45 = 2 ∧
    (ba_set narrowConfig (ba_set narrowConfig narrowArray 22 2) 150 1).data 45 = 1 ∧
    (ba_set narrowConfig (ba_set narrowConfig narrowArray 150 1) 22 2).data
      ≠ (ba_set narrowConfig (ba_set narrowConfig narrowArray 22 2) 150 1).data := by
  refine ⟨by decide, by decide, by decide, by decide, by decide, by decide, by decide, ?_⟩
  intro h
  have h45 := congrFun h 45
  revert h45
  decide

/-- C20 as stated fails: in the build with 64-bit elements and 32-bit units
where the shift by 32 leaves 0 at line 55 and the test of line 56 is executed,
the slice of 32 bits of a 32-bit element gets the mask `2 ^ 64 - 1`, the
all-ones value of the element type, not `2 ^ 32 - 1`. -/
theorem slice_mask_full_unit_is_element_ones :
    wideConfig.Valid ∧ bitdesc_init 0 32 ∈ calls wideConfig 32 (bitdesc_init 0 32) ∧
    crt_bits wideConfig (bitdesc_init 0 32) = wideConfig.BA_UNIT_SIZE_BITS ∧
    wideConfig.full_shift_value = 0 ∧ wideConfig.zero_test_runs = true ∧
    (compute_next wideConfig (bitdesc_init 0 32)).2.mask = 2 ^ 64 - 1 ∧
    (compute_next wideConfig (bitdesc_init 0 32)).2.mask
      ≠ 2 ^ wideConfig.BA_UNIT_SIZE_BITS - 1 := by
  decide

/-- C20 (slice mask, amended): for every build and every call that an
operation makes for an element of width at most the element-type width, a slice
of `n = crt_bits` bits whose shift is defined (8- or 16-bit units, or `n` below
the unit width) gets the mask `2 ^ n - 1`; any other slice is a whole 32- or
64-bit unit, and when line 55 leaves 0 there and the test of line 56 is
executed, the mask is the all-ones value of the element type, `2 ^ T - 1`. -/
theorem slice_mask_of_call (c : Config) (hv : c.Valid) (idx E : Nat)
    (hE : E ≤ c.BA_ELEMENT_TYPE_BITS) (d : bitdesc_t)
    (hd : d ∈ calls c E (bitdesc_init idx E)) :
    ((c.BA_UNIT_SIZE_BITS < 32 ∨ crt_bits c d < c.BA_UNIT_SIZE_BITS) →
      (compute_next c d).2.mask = 2 ^ crt_bits c d - 1) ∧
    (¬ (c.BA_UNIT_SIZE_BITS < 32 ∨ crt_bits c d < c.BA_UNIT_SIZE_BITS) →
      crt_bits c d = c.BA_UNIT_SIZE_BITS ∧ 32 ≤ c.BA_UNIT_SIZE_BITS ∧
      (c.full_shift_value % 2 ^ c.BA_ELEMENT_TYPE_BITS = 0 → c.zero_test_runs = true →
        (compute_next c d).2.mask = 2 ^ c.BA_ELEMENT_TYPE_BITS - 1)) := by
  have hU := hv.unit_pos
  obtain ⟨g2, ht, hpos, -, -⟩ := calls_tracks c hU E E _ _ (tracks_bitdesc_init c idx E)
    (Nat.le_refl _) d hd
  have hne : d.left_bits ≠ 0 := by omega
  have hb := crt_bits_bounds c d hne
  have hcrt := (cursor_step c hU E d g2 ht hpos).2.2
  have hn := sliceBits_le c g2 d.left_bits
  have hLE : d.left_bits ≤ E := ht.2.1
  have hmask : (compute_next c d).2.mask = slice_mask c (crt_bits c d) := by
    rw [compute_next_eq c d hne]
  have hnU : crt_bits c d ≤ c.BA_UNIT_SIZE_BITS := by rw [hcrt]; omega
  have hnT : crt_bits c d ≤ c.BA_ELEMENT_TYPE_BITS := by omega
  have hiff := shift_limit_iff c hv (crt_bits c d) hnU
  rw [hmask]
  constructor
  · intro h
    exact slice_mask_defined c _ hb.1 hnT (hiff.2 h)
  · intro h
    have hlt : ¬ crt_bits c d < shift_limit c := fun h2 => h (hiff.1 h2)
    have hf := undefined_full c hv _ hnU hlt
    refine ⟨hf.1, hf.2, fun h0 hr => ?_⟩
    simp only [slice_mask, naive_mask, if_neg hlt, h0, hr, and_self, if_true]

theorem slice_mask_of_call_witness :
    (wideConfig.Valid ∧ 40 ≤ wideConfig.BA_ELEMENT_TYPE_BITS ∧
      (compute_next wideConfig (bitdesc_init 0 40)).2
        ∈ calls wideConfig 40 (bitdesc_init 0 40) ∧
      (wideConfig.BA_UNIT_SIZE_BITS < 32 ∨
        crt_bits wideConfig (compute_next wideConfig (bitdesc_init 0 40)).2
          < wideConfig.BA_UNIT_SIZE_BITS)) ∧
    (compute_next wideConfig (compute_next wideConfig (bitdesc_init 0 40)).2).2.mask
      = 2 ^ crt_bits wideConfig (compute_next wideConfig (bitdesc_init 0 40)).2 - 1 :=
  ⟨⟨by decide, by decide, by decide, by decide⟩,
    (slice_mask_of_call wideConfig (by decide) 0 40 (by decide)
      (compute_next wideConfig (bitdesc_init 0 40)).2 (by decide)).1 (by decide)⟩

end BitArray
